import Mathlib

/-!
Verification development for the go-dedupe repository.

The Go sources are shallowly embedded as executable Lean definitions:
byte strings become `List Nat` (each element a byte value, kept below 256
by hypotheses where it matters), 64-bit machine integers become `Int`
with explicit range conditions, and fallible operations return `Option`
or small result inductives.  Runtime panics of the Go code (nil pointer
dereference, slice index out of range) are modelled as an explicit
`panic`-style constructor so that they stay observable.
-/

namespace Dedupe

/-- ASCII decimal digit test, `c` is a byte value. -/
def isDigit (c : Nat) : Bool := 48 ≤ c && c ≤ 57

/-- Value accumulated from a list of ASCII digit bytes, most significant first. -/
def natOfDigits : List Nat → Nat
  | [] => 0
  | c :: rest => natOfDigits rest + (c - 48) * 10 ^ rest.length

/-- Decimal digit bytes of a natural number, most significant first
(the digit loop of Go `strconv.AppendInt`).  Written with explicit fuel so
that the definition reduces inside the kernel; `natDigits` always supplies
enough fuel. -/
def natDigitsGo : Nat → Nat → List Nat
  | 0, _ => []
  | fuel + 1, n => if n < 10 then [n + 48] else natDigitsGo fuel (n / 10) ++ [n % 10 + 48]

def natDigits (n : Nat) : List Nat := natDigitsGo (n + 1) n

/-- Embedding of `strconv.AppendInt(out, value, 10)` restricted to the
appended bytes: the ASCII base-10 representation of an `Int`. -/
def appendInt (value : Int) : List Nat :=
  if value < 0 then 45 :: natDigits ((-value).toNat) else natDigits value.toNat

/-- The digit-run part of Go `strconv.ParseInt(s, 10, 64)` after the
optional sign: at least one digit, all digits, result within the signed
64-bit range. -/
def parseInt10Core (neg : Bool) (ds : List Nat) : Option Int :=
  if ds = [] then none
  else if ds.all isDigit then
    let v : Int := if neg then -(natOfDigits ds : Int) else (natOfDigits ds : Int)
    if -(2 ^ 63) ≤ v ∧ v ≤ 2 ^ 63 - 1 then some v else none
  else none

/-- Embedding of Go `strconv.ParseInt(s, 10, 64)`: optional sign, then
the digit run.  Returns `none` where Go returns a non-nil error. -/
def parseInt10 (s : List Nat) : Option Int :=
  match s with
  | [] => none
  | c :: rest =>
    if c = 43 then parseInt10Core false rest
    else if c = 45 then parseInt10Core true rest
    else parseInt10Core false s

/-- Big-endian interpretation of exactly 8 bytes as an unsigned 64-bit value
(Go `binary.BigEndian.Uint64`). -/
def beUint64 (s : List Nat) : Nat :=
  s.foldl (fun acc b => acc * 256 + b) 0

/-- Two's-complement reinterpretation `int64(u)` of an unsigned 64-bit value. -/
def toInt64 (u : Nat) : Int :=
  if u < 2 ^ 63 then (u : Int) else (u : Int) - 2 ^ 64

/-- ASCII-case-insensitive byte string equality.  This embeds
`bytes.EqualFold` restricted to ASCII data; every comparison performed by
the theorems below is between ASCII byte strings, where Unicode simple
folding and ASCII folding agree. -/
def asciiFoldByte (c : Nat) : Nat :=
  if 65 ≤ c && c ≤ 90 then c + 32 else c

def equalFold (a b : List Nat) : Bool :=
  a.map asciiFoldByte == b.map asciiFoldByte

/-- Embedding of `bytes.Split(input, [44])`: split on the comma byte. -/
def splitOnComma : List Nat → List (List Nat)
  | [] => [[]]
  | c :: rest =>
    if c = 44 then [] :: splitOnComma rest
    else
      match splitOnComma rest with
      | [] => [[c]]
      | p :: ps => (c :: p) :: ps

/-- Embedding of `bytes.Cut(raw, [58])`: cut at the first colon byte. -/
def cutColon : List Nat → List Nat × List Nat × Bool
  | [] => ([], [], false)
  | c :: rest =>
    if c = 58 then ([], rest, true)
    else
      let (k, v, found) := cutColon rest
      (c :: k, v, found)

/-- Byte codes of a Lean string (all concrete uses are ASCII, where
code points and UTF-8 bytes coincide). -/
def bytesOf (s : String) : List Nat := s.data.map Char.toNat

/-! ### Hex and base64 codecs

Embeddings of the parts of Go `encoding/hex` and `encoding/base64` that
`decodeHash` relies on.  A decode writes into a caller-supplied buffer of
a fixed width; writing past that width is a slice-bounds panic in Go and
is modelled by the `panic` constructor below. -/

/-- Result of a Go buffer-writing decode: `panic` models a runtime
index-out-of-range fault, `err` a non-nil error return, `ok` a clean
decode of the listed bytes. -/
inductive BufRes where
  | panic : BufRes
  | err : BufRes
  | ok : List Nat → BufRes
deriving DecidableEq

/-- `fromHexChar` of Go `encoding/hex`. -/
def fromHexChar (c : Nat) : Option Nat :=
  if 48 ≤ c && c ≤ 57 then some (c - 48)
  else if 97 ≤ c && c ≤ 102 then some (c - 97 + 10)
  else if 65 ≤ c && c ≤ 70 then some (c - 65 + 10)
  else none

/-- Go `hex.Encode`: lowercase hex bytes of the input. -/
def hexEncode : List Nat → List Nat
  | [] => []
  | b :: rest =>
    (if b / 16 < 10 then b / 16 + 48 else b / 16 - 10 + 97) ::
    (if b % 16 < 10 then b % 16 + 48 else b % 16 - 10 + 97) :: hexEncode rest

/-- Go `hex.Decode(dst, src)` where only `dstLen = len(dst)` matters for
control flow: consumes byte pairs; an invalid character is an error, a
trailing odd byte is `ErrLength`, and writing the `dstLen`-th byte is an
index-out-of-range panic.  The caller checks `n == dstLen && err == nil`,
so error results do not need to carry the partial count — except for the
odd-length case, where Go can return `n == dstLen` with `ErrLength`; that
still fails the caller's `err == nil` check, so `err` is faithful. -/
def hexDecode (dstLen : Nat) : List Nat → BufRes
  | [] => .ok []
  | [_] => .err
  | c0 :: c1 :: rest =>
    match fromHexChar c0, fromHexChar c1 with
    | some a, some b =>
      if dstLen = 0 then .panic
      else
        match hexDecode (dstLen - 1) rest with
        | .ok bs => .ok ((a * 16 + b) :: bs)
        | r => r
    | _, _ => .err

/-- Standard base64 alphabet (Go `base64.StdEncoding`). -/
def b64CharStd (s : Nat) : Nat :=
  if s < 26 then 65 + s
  else if s < 52 then 97 + (s - 26)
  else if s < 62 then 48 + (s - 52)
  else if s = 62 then 43
  else 47

/-- URL-safe base64 alphabet (Go `base64.URLEncoding`). -/
def b64CharURL (s : Nat) : Nat :=
  if s < 62 then b64CharStd s
  else if s = 62 then 45
  else 95

def b64ValStd (c : Nat) : Option Nat :=
  if 65 ≤ c && c ≤ 90 then some (c - 65)
  else if 97 ≤ c && c ≤ 122 then some (c - 97 + 26)
  else if 48 ≤ c && c ≤ 57 then some (c - 48 + 52)
  else if c = 43 then some 62
  else if c = 47 then some 63
  else none

def b64ValURL (c : Nat) : Option Nat :=
  if c = 45 then some 62
  else if c = 95 then some 63
  else if c = 43 || c = 47 then none
  else b64ValStd c

/-- Go `base64.Encoding.Encode` with padding, parameterised by the
alphabet: 3-byte groups become 4 characters; a 2-byte tail becomes 3
characters and `=`; a 1-byte tail becomes 2 characters and `==`. -/
def b64Encode (ch : Nat → Nat) : List Nat → List Nat
  | b0 :: b1 :: b2 :: rest =>
    ch (b0 / 4) :: ch (b0 % 4 * 16 + b1 / 16) :: ch (b1 % 16 * 4 + b2 / 64) ::
      ch (b2 % 64) :: b64Encode ch rest
  | [b0, b1] => [ch (b0 / 4), ch (b0 % 4 * 16 + b1 / 16), ch (b1 % 16 * 4), 61]
  | [b0] => [ch (b0 / 4), ch (b0 % 4 * 16), 61, 61]
  | [] => []

/-- Go `base64.Encoding.Decode(dst, src)` with only `dstLen = len(dst)`
relevant: processes 4-character quanta; `=` padding must terminate the
input; a non-alphabet character (including misplaced `=`) is a
`CorruptInputError`; writing past `dstLen` is an index-out-of-range
panic, matching `decodeQuantum` writing `dst[2]`, `dst[1]`, `dst[0]`.
CR/LF skipping of the Go decoder is not modelled; no input considered
here contains those bytes. -/
def b64Decode (val : Nat → Option Nat) (dstLen : Nat) : List Nat → BufRes
  | [] => .ok []
  | c0 :: c1 :: c2 :: c3 :: rest =>
    match val c0, val c1 with
    | some s0, some s1 =>
      if c2 = 61 then
        if c3 = 61 && rest.isEmpty then
          if dstLen = 0 then .panic else .ok [s0 * 4 + s1 / 16]
        else .err
      else
        match val c2 with
        | some s2 =>
          if c3 = 61 then
            if rest.isEmpty then
              if dstLen ≤ 1 then .panic
              else .ok [s0 * 4 + s1 / 16, s1 % 16 * 16 + s2 / 4]
            else .err
          else
            match val c3 with
            | some s3 =>
              if dstLen ≤ 2 then .panic
              else
                match b64Decode val (dstLen - 3) rest with
                | .ok bs =>
                  .ok ((s0 * 4 + s1 / 16) :: (s1 % 16 * 16 + s2 / 4) ::
                    (s2 % 4 * 64 + s3) :: bs)
                | r => r
            | none => .err
        | none => .err
    | _, _ => .err
  | _ => .err

/-- Go `base64.Encoding.EncodedLen(n)` for padded encodings. -/
def b64EncodedLen (n : Nat) : Nat := (n + 2) / 3 * 4

/-! ### internal/metadata hash.go -/

/-- Outcome of `decodeHash`: Go returns a `bool` and fills the output
buffer; a slice-bounds fault inside one of the library decoders aborts
the program instead. -/
inductive HashRes where
  | panic : HashRes
  | fail : HashRes
  | ok : List Nat → HashRes
deriving DecidableEq

/-- Embedding of `decodeHash(output, input)` from
`src/internal/metadata/hash.go` (lines 179-203), with
`outputLen = len(output)`:
raw copy when the input length equals the output length; otherwise the
hex decoder is attempted whenever `len(input) >= hex.EncodedLen(outputLen)`
and wins if it decodes exactly `outputLen` bytes without error; otherwise
standard base64 and then URL-safe base64 are attempted whenever
`len(input) >= base64.StdEncoding.EncodedLen(outputLen)` under the same
success condition. -/
def decodeHash (outputLen : Nat) (input : List Nat) : HashRes :=
  if input.length = outputLen then .ok input
  else
    let b64Step : HashRes :=
      if b64EncodedLen outputLen ≤ input.length then
        match b64Decode b64ValStd outputLen input with
        | .panic => .panic
        | .ok bs =>
          if bs.length = outputLen then .ok bs
          else
            match b64Decode b64ValURL outputLen input with
            | .panic => .panic
            | .ok bs2 => if bs2.length = outputLen then .ok bs2 else .fail
            | .err => .fail
        | .err =>
          match b64Decode b64ValURL outputLen input with
          | .panic => .panic
          | .ok bs2 => if bs2.length = outputLen then .ok bs2 else .fail
          | .err => .fail
      else .fail
    if 2 * outputLen ≤ input.length then
      match hexDecode outputLen input with
      | .panic => .panic
      | .ok bs => if bs.length = outputLen then .ok bs else b64Step
      | .err => b64Step
    else b64Step

/-- Embedding of `decodeInt(input)` from `src/internal/metadata/hash.go`
(lines 168-177): `strconv.ParseInt` base 10, with a fallback to 8 raw
big-endian bytes. -/
def decodeInt (input : List Nat) : Option Int :=
  match parseInt10 input with
  | some v => some v
  | none =>
    if input.length = 8 then some (toInt64 (beUint64 input)) else none

/-- `appendHash(out, wantHex, raw)` restricted to the appended bytes:
lowercase hex when `wantHex`, standard base64 otherwise. -/
def appendHash (wantHex : Bool) (raw : List Nat) : List Nat :=
  if wantHex then hexEncode raw else b64Encode b64CharStd raw

/-! ### cmd/find-duplicate-files metadata.go integer codec -/

/-- The `reInt` gate of `src/cmd/find-duplicate-files/metadata.go`
line 51, the regular expression `0 | [1-9][0-9]+` anchored on both
sides.  Note the `+`: one digit `1`-`9` must be followed by at least one
more digit. -/
def reIntMatch (s : List Nat) : Bool :=
  match s with
  | [48] => true
  | c :: rest => 49 ≤ c && c ≤ 57 && !rest.isEmpty && rest.all isDigit
  | [] => false

/-- Embedding of `DecodeInt(output, input)` from
`src/cmd/find-duplicate-files/metadata.go` (lines 285-299): the decimal
path is gated on `reInt`, then the 8-raw-byte fallback applies. -/
def cmdDecodeInt (input : List Nat) : Option Int :=
  let dec : Option Int :=
    if reIntMatch input then parseInt10 input else none
  match dec with
  | some v => some v
  | none =>
    if input.length = 8 then some (toInt64 (beUint64 input)) else none

/-- `EncodeInt` of `src/cmd/find-duplicate-files/metadata.go`:
`strconv.AppendInt(tmp[:0], value, 10)`. -/
def cmdEncodeInt (value : Int) : List Nat := appendInt value

/-! ### internal/metadata Metadata (bits.go + hash.go) -/

/-- The presence bitmask `Bits` (a `uint32` in Go) with its five named
bits `SizeBit = 1`, `TimeBit = 2`, `MD5Bit = 4`, `SHA1Bit = 8`,
`SHA256Bit = 16`; `AllBits = 31`. -/
abbrev Bits := Nat

def SizeBit : Bits := 1
def TimeBit : Bits := 2
def MD5Bit : Bits := 4
def SHA1Bit : Bits := 8
def SHA256Bit : Bits := 16
def AllBits : Bits := 31

def Bits.HasAll (bits x : Bits) : Bool := bits &&& x == x

def Bits.Has (bits x : Bits) : Bool := bits &&& x != 0

/-- The `Metadata` struct of `src/internal/metadata/hash.go`.  The Go
digest fields are fixed-width byte arrays (`[16]byte`, `[20]byte`,
`[32]byte`); here they are byte lists whose widths are stated as
hypotheses where they matter. -/
structure Metadata where
  bits : Bits
  size : Int
  time : Int
  md5 : List Nat
  sha1 : List Nat
  sha256 : List Nat
deriving DecidableEq

/-- `Metadata{}` — the zero value: empty bitmask, zero integers,
all-zero digest arrays. -/
def Metadata.empty : Metadata :=
  ⟨0, 0, 0, List.replicate 16 0, List.replicate 20 0, List.replicate 32 0⟩

/-- `Metadata.Check(size, modTime)` (hash.go lines 60-67). -/
def Metadata.CheckAt (meta : Metadata) (size modTime : Int) : Bool :=
  if meta.bits.HasAll (SizeBit ||| TimeBit) then
    size == meta.size && modTime == meta.time
  else false

/-- `decodeSize` (hash.go lines 120-127). -/
def Metadata.decodeSize (meta : Metadata) (raw : List Nat) : Metadata :=
  match decodeInt raw with
  | some i64 => { meta with size := i64, bits := meta.bits ||| SizeBit }
  | none => meta

/-- `decodeModTime` (hash.go lines 129-136). -/
def Metadata.decodeModTime (meta : Metadata) (raw : List Nat) : Metadata :=
  match decodeInt raw with
  | some i64 => { meta with time := i64, bits := meta.bits ||| TimeBit }
  | none => meta

/-- `decodeMD5` (hash.go lines 138-146); the panic outcome of
`decodeHash` is threaded through as `none`. -/
def Metadata.decodeMD5 (meta : Metadata) (raw : List Nat) : Option Metadata :=
  match decodeHash 16 raw with
  | .panic => none
  | .fail => some meta
  | .ok bs => some { meta with md5 := bs, bits := meta.bits ||| MD5Bit }

/-- `decodeSHA1` (hash.go lines 148-156). -/
def Metadata.decodeSHA1 (meta : Metadata) (raw : List Nat) : Option Metadata :=
  match decodeHash 20 raw with
  | .panic => none
  | .fail => some meta
  | .ok bs => some { meta with sha1 := bs, bits := meta.bits ||| SHA1Bit }

/-- `decodeSHA256` (hash.go lines 158-166). -/
def Metadata.decodeSHA256 (meta : Metadata) (raw : List Nat) : Option Metadata :=
  match decodeHash 32 raw with
  | .panic => none
  | .fail => some meta
  | .ok bs => some { meta with sha256 := bs, bits := meta.bits ||| SHA256Bit }

/-- One iteration of the `Metadata.Decode` loop body (hash.go lines
102-115): cut the pair at the colon and dispatch on the
case-insensitive key. -/
def Metadata.decodePair (meta : Metadata) (raw : List Nat) : Option Metadata :=
  let (key, value, found) := cutColon raw
  if found && equalFold key (bytesOf "size") then some (meta.decodeSize value)
  else if found && equalFold key (bytesOf "modTime") then some (meta.decodeModTime value)
  else if found && equalFold key (bytesOf "md5") then meta.decodeMD5 value
  else if found && equalFold key (bytesOf "sha1") then meta.decodeSHA1 value
  else if found && equalFold key (bytesOf "sha256") then meta.decodeSHA256 value
  else some meta

/-- `Metadata.Decode(input)` (hash.go lines 101-118): split the combined
stamp on commas and decode each `key:value` pair; the returned Boolean
is `meta.Bits.HasAll(AllBits)`.  `none` models a panic escaping from a
hash decoder. -/
def Metadata.Decode (meta : Metadata) (input : List Nat) : Option (Metadata × Bool) :=
  let rec go (meta : Metadata) : List (List Nat) → Option Metadata
    | [] => some meta
    | raw :: rest =>
      match meta.decodePair raw with
      | some meta2 => go meta2 rest
      | none => none
  match go meta (splitOnComma input) with
  | some meta2 => some (meta2, meta2.bits.HasAll AllBits)
  | none => none

/-- `Metadata.Append(out)` (hash.go lines 271-292) restricted to the
appended bytes: the combined stamp
`size:<dec>,modTime:<dec>,md5:<b64>,sha1:<b64>,sha256:<b64>` with the
hash values in standard base64 (`appendHash` with `wantHex = false`). -/
def Metadata.Append (meta : Metadata) : List Nat :=
  bytesOf "size:" ++ appendInt meta.size ++
  [44] ++ bytesOf "modTime:" ++ appendInt meta.time ++
  [44] ++ bytesOf "md5:" ++ appendHash false meta.md5 ++
  [44] ++ bytesOf "sha1:" ++ appendHash false meta.sha1 ++
  [44] ++ bytesOf "sha256:" ++ appendHash false meta.sha256

/-- One read step of the `Metadata.Compute` loop: a chunk of bytes
together with a flag marking whether the read returned a non-EOF error
after those bytes.  The end of the list is the EOF condition. -/
structure ReadEv where
  chunk : List Nat
  isErr : Bool
deriving DecidableEq

/-- A file as `Metadata.Compute` observes it: whether the initial
`Seek(0, io.SeekStart)` succeeds, and the sequence of reads. -/
structure FileModel where
  seekOK : Bool
  reads : List ReadEv
deriving DecidableEq

/-- The bytes actually consumed by the read loop before it stops:
everything up to and including the chunk of the first erroring read. -/
def readBytes : List ReadEv → List Nat × Bool
  | [] => ([], false)
  | ev :: rest =>
    if ev.isErr then (ev.chunk, true)
    else
      let (bs, e) := readBytes rest
      (ev.chunk ++ bs, e)

/-- Embedding of `Metadata.Compute(file, size, modTime)` (hash.go lines
205-259), parameterised by the three hash functions (the Go hashers are
streamed; their final sums equal the hash of the concatenated stream).
Returns the updated metadata and the Boolean result; on every failure
path the metadata is returned untouched, on success it is rebuilt from
scratch (`Reset` followed by the field assignments). -/
def Metadata.Compute (md5F sha1F sha256F : List Nat → List Nat)
    (meta : Metadata) (f : FileModel) (size modTime : Int) : Metadata × Bool :=
  if !f.seekOK then (meta, false)
  else
    let (bytes, readErr) := readBytes f.reads
    if readErr then (meta, false)
    else if size ≠ (bytes.length : Int) then (meta, false)
    else
      (⟨AllBits, size, modTime, md5F bytes, sha1F bytes, sha256F bytes⟩, true)

/-! ### internal/metadata names.go and the find-duplicate-files flag setup -/

/-- The `Names` struct of `src/internal/metadata`: the extended-attribute
names used by `Load` and `Save`. -/
structure Names where
  Stamp : String
  Size : String
  Time : String
  MD5 : String
  SHA1 : String
  SHA256 : String
deriving DecidableEq

/-- `DefaultNames()`: only the stamp carries the `user.dedupe.`
namespace; the five per-field attributes use the fixed legacy names. -/
def DefaultNames : Names :=
  ⟨"user.dedupe.stamp", "user.size", "user.mtime",
   "user.md5sum", "user.sha1sum", "user.sha256sum"⟩

/-- The names actually in effect after `main` runs with namespace flag
`ns` (src/unnamed/part_004: `gNames = metadata.DefaultNames()` at
line 35, then `gNames.Stamp = flagNS + "stamp"` at line 69; no other
field is touched). -/
def configuredNames (ns : String) : Names :=
  { DefaultNames with Stamp := ns ++ "stamp" }

/-! ### Item.Close (internal/item and cmd/find-duplicate-files) -/

/-- The slice of an `Item` relevant to `Close`: the path and the owned
file handle (`none` models a nil `*os.File`). -/
structure ItemFD where
  path : String
  file : Option Nat
deriving DecidableEq

/-- `(*item.Item).Close` of `src/unnamed/part_000` (lines 83-98): a nil
receiver returns immediately; otherwise the handle field is cleared
first and the handle, if present, is closed.  The input `none` is a nil
`*Item`; the returned number counts `f.Close()` calls. -/
def itemClose : Option ItemFD → Option ItemFD × Nat
  | none => (none, 0)
  | some it => (some { it with file := none }, if it.file.isSome then 1 else 0)

/-- `(*Item).Close` of `src/cmd/find-duplicate-files` (rule.go item
section, lines 89-97): reads `item.File` with no nil-receiver guard, so
a nil `*Item` dereferences nil and faults — modelled by the outer
`none`. -/
def cmdItemClose : Option ItemFD → Option (Option ItemFD × Nat)
  | none => none
  | some it => some (some { it with file := none }, if it.file.isSome then 1 else 0)

/-! ### cmd/find-duplicate-files two-phase grouping (main.go, compare.go) -/

def CompareByte (a b : Nat) : Int :=
  if a < b then -1 else if b < a then 1 else 0

def CompareUint64 (a b : Nat) : Int :=
  if a < b then -1 else if b < a then 1 else 0

/-- `CompareSHA256` of compare.go: byte-by-byte comparison of the two
fixed-width digests. -/
def CompareSHA256 : List Nat → List Nat → Int
  | a :: as, b :: bs =>
    let c := CompareByte a b
    if c ≠ 0 then c else CompareSHA256 as bs
  | _, _ => 0

/-- The `Key` struct of main.go (lines 207-211): SHA-256 digest plus
device and inode numbers. -/
structure Key where
  hash : List Nat
  dev : Nat
  ino : Nat
deriving DecidableEq

/-- `Key.CompareTo` (main.go lines 213-222): digest, then device, then
inode, all ascending. -/
def Key.CompareTo (key other : Key) : Int :=
  let cmp := CompareSHA256 key.hash other.hash
  let cmp := if cmp = 0 then CompareUint64 key.dev other.dev else cmp
  if cmp = 0 then CompareUint64 key.ino other.ino else cmp

/-- Generic insertion sort: the embedding of `sort.Sort`/`sort.Strings`.
Any comparison sort agrees with it whenever the Boolean relation is a
total preorder, which holds for all comparators below. -/
def insertBy (le : α → α → Bool) (x : α) : List α → List α
  | [] => [x]
  | y :: ys => if le x y then x :: y :: ys else y :: insertBy le x ys

def sortBy (le : α → α → Bool) : List α → List α
  | [] => []
  | x :: xs => insertBy le x (sortBy le xs)

/-- Byte-lexicographic string order, the order used by `sort.Strings`
(Go compares strings byte-wise; on these code-point lists the order
coincides for valid UTF-8). -/
def listLe : List Nat → List Nat → Bool
  | [], _ => true
  | _ :: _, [] => false
  | a :: as, b :: bs => if a < b then true else if b < a then false else listLe as bs

def strLe (a b : String) : Bool := listLe (bytesOf a) (bytesOf b)

def keyLe (a b : Key) : Bool := a.CompareTo b ≤ 0

def hashLe (a b : List Nat) : Bool := CompareSHA256 a b ≤ 0

def lookupKey (seen : List (Key × List String)) (k : Key) : List String :=
  match seen.find? (fun e => e.1 == k) with
  | some e => e.2
  | none => []

def lookupHash (m : List (List Nat × List String)) (h : List Nat) : List String :=
  match m.find? (fun e => e.1 == h) with
  | some e => e.2
  | none => []

/-- `seenByHash[key.Hash] = append(seenByHash[key.Hash], subPaths[0])`
on the association-list representation of the Go map. -/
def insertAppend : List (List Nat × List String) → List Nat → String →
    List (List Nat × List String)
  | [], h, p => [(h, [p])]
  | (h2, ps) :: rest, h, p =>
    if h2 == h then (h2, ps ++ [p]) :: rest else (h2, ps) :: insertAppend rest h p

/-- The two-phase reduction of main.go lines 50-82 on the scan output
`seen : map[Key][]string` (represented as an association list with
distinct keys): sort the keys, collapse each (digest, dev, ino) group to
the head of its sorted path list, regroup those representatives by
digest alone, and emit the groups with more than one path in digest
order. -/
def twoPhase (seen : List (Key × List String)) : List (List String) :=
  let keys := sortBy keyLe (seen.map (·.1))
  let seenByHash := keys.foldl (fun m key =>
    let subPaths := sortBy strLe (lookupKey seen key)
    insertAppend m key.hash (subPaths.headD "")) []
  let hashes := sortBy hashLe (seenByHash.map (·.1))
  (hashes.map (lookupHash seenByHash)).filter (fun paths => 1 < paths.length)

/-! ### clean-duplicate-files survivor selection (item.go, part_002) -/

/-- The fields of `item.Item` that `CompareItems` and `processBatch`
inspect. -/
structure SurvItem where
  priority : Nat
  nlink : Nat
  time : Int
  path : String
  isSymlink : Bool
deriving DecidableEq

def cmpNat (a b : Nat) : Int := if a < b then -1 else if b < a then 1 else 0

def cmpInt (a b : Int) : Int := if a < b then -1 else if b < a then 1 else 0

def cmpList : List Nat → List Nat → Int
  | [], [] => 0
  | [], _ :: _ => -1
  | _ :: _, [] => 1
  | a :: as, b :: bs => if a < b then -1 else if b < a then 1 else cmpList as bs

/-- `cmp.Compare` on Go strings: byte-lexicographic three-way compare. -/
def cmpStr (a b : String) : Int := cmpList (bytesOf a) (bytesOf b)

/-- `CompareItems` of `src/cmd/clean-duplicate-files/item.go` (lines
39-51): priority ascending, hardlink count descending (note the
negation), modification time ascending, path ascending. -/
def CompareItems (a b : SurvItem) : Int :=
  let order := cmpNat a.priority b.priority
  let order := if order = 0 then -cmpNat a.nlink b.nlink else order
  let order := if order = 0 then cmpInt a.time b.time else order
  if order = 0 then cmpStr a.path b.path else order

def itemLe (a b : SurvItem) : Bool := CompareItems a b ≤ 0

/-- `Items.Sort` — `sort.Sort` with `Less i j = CompareItems(l[i], l[j]) < 0`. -/
def sortItems : List SurvItem → List SurvItem := sortBy itemLe

/-- The survivor scan of `processBatch` (src/unnamed/part_002 lines
81-93): walk the sorted group from the front and take the first item
that is not a symlink; if the index runs off the end the whole group is
skipped (`none`). -/
def selectSurvivor (items : List SurvItem) : Option SurvItem :=
  (sortItems items).find? (fun it => !it.isSymlink)

/-- The survivor ordering exactly as the specification words it:
"priority rank ascending, then hardlink count descending, then
modification time ascending, then path ascending". -/
def specOrderLE (a b : SurvItem) : Bool :=
  if a.priority ≠ b.priority then decide (a.priority < b.priority)
  else if a.nlink ≠ b.nlink then decide (b.nlink < a.nlink)
  else if a.time ≠ b.time then decide (a.time < b.time)
  else listLe (bytesOf a.path) (bytesOf b.path)

/-! ### internal/glob (src/unnamed/part_001)

The compiler state machine is embedded as a direct recursion over the
input code points: every handler `onX` consumes its characters and
falls back to the Ready state, so the run loop is equivalent to calling
the handlers in input order.  NFD normalisation is the identity on the
ASCII inputs considered by the claims and is not modelled; input is a
sequence of decoded code points (the invalid-UTF-8 error path of
`requireEOF` is therefore not reachable in the model). -/

inductive GlobErr where
  | unexpectedBackslash : GlobErr
  | unterminatedClass : GlobErr
  | depthAtEOF : Nat → GlobErr
deriving DecidableEq

/-- The four fragment constants `rxSlash`, `rxQuestion`, `rxStar`,
`rxStarStar`. -/
def rxSlash : List Nat := bytesOf "/+"
def rxQuestion : List Nat := bytesOf "[^/]"
def rxStar : List Nat := bytesOf "[^/]*"
def rxStarStar : List Nat := bytesOf ".*"

/-- The characters `regexp.QuoteMeta` escapes. -/
def isRegexSpecial (c : Nat) : Bool :=
  c = 92 || c = 46 || c = 43 || c = 42 || c = 63 || c = 40 || c = 41 ||
  c = 124 || c = 91 || c = 93 || c = 123 || c = 125 || c = 94 || c = 36

/-- `regexp.QuoteMeta(string(ch))` for a single character. -/
def quoteMeta (c : Nat) : List Nat :=
  if isRegexSpecial c then [92, c] else [c]

/-- The character-class loop of `Compiler.onBracket` after the optional
leading `^`: backslash escapes one character, `]` closes the class, EOF
inside the class is a compile error (`none`).  Returns the emitted class
body (up to and including `]`) and the remaining input. -/
def bracketBody : Bool → List Nat → Option (List Nat × List Nat)
  | _, [] => none
  | inEscape, c :: rest =>
    if inEscape then
      match bracketBody false rest with
      | some (out, r) => some (92 :: c :: out, r)
      | none => none
    else if c = 92 then bracketBody true rest
    else if c = 93 then some ([93], rest)
    else
      match bracketBody false rest with
      | some (out, r) => some (c :: out, r)
      | none => none

theorem bracketBody_shrinks : (esc : Bool) → (l : List Nat) → ∀ out r,
    bracketBody esc l = some (out, r) → r.length < l.length
  | _, [] => by intro out r h; simp [bracketBody] at h
  | esc, c :: rest => by
    intro out r h
    simp only [bracketBody] at h
    split at h
    · cases hb : bracketBody false rest with
      | none => rw [hb] at h; simp at h
      | some p =>
        obtain ⟨o2, r2⟩ := p
        rw [hb] at h
        simp only [Option.some.injEq, Prod.mk.injEq] at h
        obtain ⟨-, hr⟩ := h
        subst hr
        have := bracketBody_shrinks false rest o2 r2 hb
        simp only [List.length_cons]
        omega
    · split at h
      · have := bracketBody_shrinks true rest out r h
        simp only [List.length_cons]
        omega
      · split at h
        · simp only [Option.some.injEq, Prod.mk.injEq] at h
          obtain ⟨-, hr⟩ := h
          subst hr
          simp
        · cases hb : bracketBody false rest with
          | none => rw [hb] at h; simp at h
          | some p =>
            obtain ⟨o2, r2⟩ := p
            rw [hb] at h
            simp only [Option.some.injEq, Prod.mk.injEq] at h
            obtain ⟨-, hr⟩ := h
            subst hr
            have := bracketBody_shrinks false rest o2 r2 hb
            simp only [List.length_cons]
            omega

/-- `Compiler.onBracket` after the consumed `[`: the optional leading
`^` followed by the class loop.  Returns the negation flag, the emitted
body and the remaining input, or `none` for an unterminated class. -/
def bracketArm (rest : List Nat) : Option (Bool × List Nat × List Nat) :=
  match rest with
  | [] => none
  | c :: r =>
    if c = 94 then
      match bracketBody false r with
      | some (out, r2) => some (true, out, r2)
      | none => none
    else
      match bracketBody false (c :: r) with
      | some (out, r2) => some (false, out, r2)
      | none => none

theorem bracketArm_shrinks (rest : List Nat) (n : Bool) (o r2 : List Nat)
    (h : bracketArm rest = some (n, o, r2)) : r2.length < rest.length := by
  cases rest with
  | nil => simp [bracketArm] at h
  | cons c r =>
    by_cases h94 : c = 94
    · subst h94
      simp only [bracketArm, if_pos rfl] at h
      cases hb : bracketBody false r with
      | none => rw [hb] at h; simp at h
      | some p =>
        obtain ⟨o3, r3⟩ := p
        rw [hb] at h
        injection h with h
        injection h with h1 h
        injection h with h2 h3
        subst h3
        have := bracketBody_shrinks false r o3 r3 hb
        simp only [List.length_cons]
        omega
    · simp only [bracketArm, if_neg h94] at h
      cases hb : bracketBody false (c :: r) with
      | none => rw [hb] at h; simp at h
      | some p =>
        obtain ⟨o3, r3⟩ := p
        rw [hb] at h
        injection h with h
        injection h with h1 h
        injection h with h2 h3
        subst h3
        exact bracketBody_shrinks false (c :: r) o3 r3 hb

theorem length_dropWhile_le (p : Nat → Bool) (l : List Nat) :
    (l.dropWhile p).length ≤ l.length := by
  induction l with
  | nil => simp [List.dropWhile]
  | cons c rest ih =>
    simp only [List.dropWhile]
    cases p c <;> simp <;> omega

/-- The compiler run: `Reset`, the `step` loop and the final `Compile`
check, fused over the handlers.  Each branch below is one `onX`
handler of src/unnamed/part_001; the produced list is `gc.output`
without its leading `^` anchor (added by `globCompile`), and success
corresponds to `gc.err == io.EOF` after `requireEOF`. -/
def runMachine (depth : Nat) (input : List Nat) : Except GlobErr (List Nat) :=
  match input with
  | [] => if 0 < depth then .error (.depthAtEOF depth) else .ok [36]
  | c :: rest =>
    if c = 92 then .error .unexpectedBackslash
    else if c = 47 then
      have hdw : (rest.dropWhile (· == 47)).length ≤ rest.length :=
        length_dropWhile_le _ rest
      (runMachine depth (rest.dropWhile (· == 47))).map (fun out => rxSlash ++ out)
    else if c = 42 then
      if rest.head? = some 42 then
        have htl : rest.tail.length ≤ rest.length := by cases rest <;> simp
        (runMachine depth rest.tail).map (fun out => rxStarStar ++ out)
      else (runMachine depth rest).map (fun out => rxStar ++ out)
    else if c = 63 then (runMachine depth rest).map (fun out => rxQuestion ++ out)
    else if c = 91 then
      match hb : bracketArm rest with
      | none => .error .unterminatedClass
      | some (neg, body, rest2) =>
        have hba : rest2.length < rest.length := bracketArm_shrinks rest neg body rest2 hb
        (runMachine depth rest2).map
          (fun out => 91 :: (if neg then [94] else []) ++ body ++ out)
    else if c = 123 then
      (runMachine (depth + 1) rest).map (fun out => 40 :: 63 :: 58 :: out)
    else if c = 44 && 0 < depth then (runMachine depth rest).map (fun out => 124 :: out)
    else if c = 125 && 0 < depth then
      (runMachine (depth - 1) rest).map (fun out => 41 :: out)
    else (runMachine depth rest).map (fun out => quoteMeta c ++ out)
  termination_by input.length
  decreasing_by
  all_goals try simp_all only [List.length_cons]
  all_goals omega

/-- The glob state machine on one input: `Reset` seeds the output with
the `^` anchor, then the handlers run and `requireEOF` appends `$`. -/
def globCompile (input : List Nat) : Except GlobErr (List Nat) :=
  (runMachine 0 input).map (fun out => 94 :: out)

/-- `glob.Compile` (src/unnamed/part_001 lines 306-315) minus the NFD
step: an input already starting with `^` is passed through as a raw
regular expression, everything else goes through the state machine.  The
final `regexp.Compile` of the produced pattern text is modelled
separately by `parseGoRegex`. -/
def Compile (input : List Nat) : Except GlobErr (List Nat) :=
  match input with
  | c :: rest => if c = 94 then .ok (c :: rest) else globCompile (c :: rest)
  | [] => globCompile []

/-- Specification-level scanner for the two malformed-input conditions
of the claim: a character class left unterminated at end of input
(`]` closes, a backslash escapes one character), written from the
specification's description of the grammar. -/
def classScan : List Nat → Option (List Nat)
  | [] => none
  | c :: rest =>
    if c = 92 then
      match rest with
      | [] => none
      | _ :: rest2 => classScan rest2
    else if c = 93 then some rest
    else classScan rest

theorem classScan_shrinks : (l : List Nat) → ∀ r, classScan l = some r → r.length < l.length
  | [] => by intro r h; simp [classScan] at h
  | c :: rest => by
    intro r h
    unfold classScan at h
    split at h
    · cases rest with
      | nil => simp at h
      | cons x rest2 =>
        have := classScan_shrinks rest2 r h
        simp only [List.length_cons]
        omega
    · split at h
      · cases h
        simp only [List.length_cons]
        omega
      · have := classScan_shrinks rest r h
        simp only [List.length_cons]
        omega

/-- Specification-level one-pass scanner over a glob input: returns
whether some character class is left unterminated at end of input and
the brace-group depth reached at end of input (`{` increments, `}`
decrements only while a group is open, class contents are opaque). -/
def scanGlob (d : Nat) (input : List Nat) : Bool × Nat :=
  match input with
  | [] => (false, d)
  | c :: rest =>
    if c = 91 then
      match hc : classScan rest with
      | none => (true, d)
      | some r =>
        have : r.length < rest.length := classScan_shrinks rest r hc
        scanGlob d r
    else if c = 123 then scanGlob (d + 1) rest
    else if c = 125 then scanGlob (if 0 < d then d - 1 else d) rest
    else scanGlob d rest
  termination_by input.length
  decreasing_by
  all_goals simp_all only [List.length_cons]
  all_goals omega

/-! ### A regular-expression semantics for the compiled patterns

`glob.Compile` hands its output to Go `regexp.Compile` and matching is
`(*regexp.Regexp).MatchString`.  The fragment of regular-expression
syntax the glob compiler emits (literals, `\x` escapes, `.`, character
classes with ranges and `\x` escapes, `(?: | )` groups, postfix `*`,
`+`, `?`, and the two anchors) is given a standard semantics via
Brzozowski derivatives so that the concrete examples can be evaluated. -/

inductive RE where
  | eps : RE
  | void : RE
  | cls : Bool → List (Nat × Nat) → RE
  | seq : RE → RE → RE
  | alt : RE → RE → RE
  | star : RE → RE
deriving DecidableEq

def RE.nullable : RE → Bool
  | .eps => true
  | .void => false
  | .cls _ _ => false
  | .seq a b => a.nullable && b.nullable
  | .alt a b => a.nullable || b.nullable
  | .star _ => true

def clsMatches (neg : Bool) (ranges : List (Nat × Nat)) (c : Nat) : Bool :=
  (ranges.any (fun p => p.1 ≤ c && c ≤ p.2)) != neg

def RE.deriv (c : Nat) : RE → RE
  | .eps => .void
  | .void => .void
  | .cls neg rs => if clsMatches neg rs c then .eps else .void
  | .seq a b =>
    if a.nullable then .alt (.seq (a.deriv c) b) (b.deriv c) else .seq (a.deriv c) b
  | .alt a b => .alt (a.deriv c) (b.deriv c)
  | .star r => .seq (r.deriv c) (.star r)

def reFullMatch (r : RE) (s : List Nat) : Bool :=
  (s.foldl (fun acc c => RE.deriv c acc) r).nullable

/-- Character-class body parser: items until the closing `]`, with
`\x` escapes and `a-b` ranges. -/
def pClsRanges : List Nat → Option (List (Nat × Nat) × List Nat)
  | [] => none
  | 93 :: rest => some ([], rest)
  | 92 :: c :: rest =>
    match pClsRanges rest with
    | some (is, r) => some ((c, c) :: is, r)
    | none => none
  | a :: 45 :: b :: rest =>
    if b = 93 then some ([(a, a), (45, 45)], rest)
    else
      match pClsRanges rest with
      | some (is, r) => some ((a, b) :: is, r)
      | none => none
  | a :: rest =>
    match pClsRanges rest with
    | some (is, r) => some ((a, a) :: is, r)
    | none => none

mutual

def pAlt : Nat → List Nat → Option (RE × List Nat)
  | 0, _ => none
  | fuel + 1, s =>
    match pSeq fuel s with
    | some (r, rest) =>
      match rest with
      | 124 :: rest2 =>
        match pAlt fuel rest2 with
        | some (r2, rest3) => some (.alt r r2, rest3)
        | none => none
      | _ => some (r, rest)
    | none => none

def pSeq : Nat → List Nat → Option (RE × List Nat)
  | 0, _ => none
  | fuel + 1, s =>
    match pAtom fuel s with
    | none => some (.eps, s)
    | some (r, rest) =>
      let (r2, rest2) :=
        match rest with
        | 42 :: t => (RE.star r, t)
        | 43 :: t => (RE.seq r (RE.star r), t)
        | 63 :: t => (RE.alt r RE.eps, t)
        | _ => (r, rest)
      match pSeq fuel rest2 with
      | some (r3, rest3) => some (.seq r2 r3, rest3)
      | none => none

def pAtom : Nat → List Nat → Option (RE × List Nat)
  | 0, _ => none
  | fuel + 1, s =>
    match s with
    | 92 :: c :: rest => some (.cls false [(c, c)], rest)
    | 46 :: rest => some (.cls true [(10, 10)], rest)
    | 91 :: 94 :: rest =>
      match pClsRanges rest with
      | some (rs, r) => some (.cls true rs, r)
      | none => none
    | 91 :: rest =>
      match pClsRanges rest with
      | some (rs, r) => some (.cls false rs, r)
      | none => none
    | 40 :: 63 :: 58 :: rest =>
      match pAlt fuel rest with
      | some (r, 41 :: rest2) => some (r, rest2)
      | _ => none
    | c :: rest =>
      if c = 41 || c = 124 || c = 42 || c = 43 || c = 63 || c = 36 || c = 94 then none
      else some (.cls false [(c, c)], rest)
    | [] => none

end

/-- Model of `regexp.Compile` on a fully anchored pattern `^ ... $` of
the emitted dialect. -/
def parseGoRegex (pat : List Nat) : Option RE :=
  match pat with
  | 94 :: rest =>
    match pAlt (2 * rest.length + 8) rest with
    | some (r, [36]) => some r
    | _ => none
  | _ => none

/-- Model of compiling the pattern text and running
`(*regexp.Regexp).MatchString` on a whole subject (the pattern is
anchored on both ends, so a search equals a full match). -/
def goMatch (pat : List Nat) (s : List Nat) : Option Bool :=
  (parseGoRegex pat).map (fun r => reFullMatch r s)

/-- The glob of the specification example, `**/*.` followed by the
brace group of `jpg` and `png` (codes 123 and 125 are the braces). -/
def c8Glob : List Nat := bytesOf "**/*." ++ [123] ++ bytesOf "jpg,png" ++ [125]

/-- The pattern text the compiler produces for `c8Glob`:
caret, `.*`, `/+`, `[^/]*`, backslash-dot, `(?:jpg|png)`, dollar. -/
def c8Pattern : List Nat :=
  bytesOf "^.*/+[^/]*" ++ [92, 46, 40, 63, 58] ++ bytesOf "jpg" ++ [124] ++
    bytesOf "png" ++ [41, 36]

/-! ## Supporting lemmas -/

theorem isPrefixOf_append_self (l t : List Nat) : l.isPrefixOf (l ++ t) = true := by
  induction l with
  | nil => simp [List.isPrefixOf]
  | cons a as ih => simpa [List.isPrefixOf] using ih

theorem listLe_refl : ∀ a, listLe a a = true := by
  intro a
  induction a with
  | nil => rfl
  | cons x xs ih => simp [listLe, ih]

theorem listLe_total : ∀ a b, listLe a b = true ∨ listLe b a = true := by
  intro a
  induction a with
  | nil => intro b; left; rfl
  | cons x xs ih =>
    intro b
    cases b with
    | nil => right; rfl
    | cons y ys =>
      simp only [listLe]
      rcases Nat.lt_trichotomy x y with h | h | h
      · left; simp [h]
      · subst h
        simp only [Nat.lt_irrefl, if_false]
        exact ih ys
      · right; simp [h, Nat.not_lt.mpr (Nat.le_of_lt h)]

theorem listLe_trans : ∀ a b c, listLe a b = true → listLe b c = true → listLe a c = true := by
  intro a
  induction a with
  | nil => intro b c _ _; rfl
  | cons x xs ih =>
    intro b c hab hbc
    cases b with
    | nil => simp [listLe] at hab
    | cons y ys =>
      cases c with
      | nil => simp [listLe] at hbc
      | cons z zs =>
        simp only [listLe] at *
        split_ifs at * with h1 h2 h3 h4 h5 h6 h7 h8 h9 <;>
          first
            | rfl
            | omega
            | (exact ih ys zs hab hbc)
            | (simp_all)

/-- Unfolded characterisation of the specification ordering. -/
theorem specOrderLE_iff (a b : SurvItem) :
    specOrderLE a b = true ↔
      (a.priority < b.priority ∨ (a.priority = b.priority ∧
        (b.nlink < a.nlink ∨ (a.nlink = b.nlink ∧
          (a.time < b.time ∨ (a.time = b.time ∧
            listLe (bytesOf a.path) (bytesOf b.path) = true)))))) := by
  unfold specOrderLE
  cases hpl : listLe (bytesOf a.path) (bytesOf b.path) <;>
    split_ifs <;> simp_all <;> omega

theorem specOrderLE_refl (a : SurvItem) : specOrderLE a a = true := by
  simp [specOrderLE, listLe_refl]

theorem specOrderLE_total (a b : SurvItem) :
    specOrderLE a b = true ∨ specOrderLE b a = true := by
  rw [specOrderLE_iff, specOrderLE_iff]
  rcases listLe_total (bytesOf a.path) (bytesOf b.path) with h | h <;>
    cases h2 : listLe (bytesOf b.path) (bytesOf a.path) <;>
      cases h3 : listLe (bytesOf a.path) (bytesOf b.path) <;>
        simp_all <;> omega

theorem specOrderLE_trans (a b c : SurvItem) (hab : specOrderLE a b = true)
    (hbc : specOrderLE b c = true) : specOrderLE a c = true := by
  rw [specOrderLE_iff] at hab hbc ⊢
  cases h1 : listLe (bytesOf a.path) (bytesOf b.path) <;>
    cases h2 : listLe (bytesOf b.path) (bytesOf c.path) <;>
      cases h3 : listLe (bytesOf a.path) (bytesOf c.path) <;>
        simp_all <;>
        first
          | omega
          | (have h4 := listLe_trans _ _ _ h1 h2; simp_all)

theorem cmpList_le_iff : ∀ as bs, (cmpList as bs ≤ 0) ↔ listLe as bs = true := by
  intro as
  induction as with
  | nil =>
    intro bs
    cases bs <;> simp [cmpList, listLe]
  | cons x xs ih =>
    intro bs
    cases bs with
    | nil => simp [cmpList, listLe]
    | cons y ys =>
      simp only [cmpList, listLe]
      split_ifs with hlt hgt <;> simp [ih]

theorem cmpNat_of_lt {a b : Nat} (h : a < b) : cmpNat a b = -1 := by
  unfold cmpNat; rw [if_pos h]

theorem cmpNat_of_eq {a b : Nat} (h : a = b) : cmpNat a b = 0 := by
  unfold cmpNat; rw [if_neg (by omega), if_neg (by omega)]

theorem cmpNat_of_gt {a b : Nat} (h : b < a) : cmpNat a b = 1 := by
  unfold cmpNat; rw [if_neg (by omega), if_pos h]

theorem cmpInt_of_lt {a b : Int} (h : a < b) : cmpInt a b = -1 := by
  unfold cmpInt; rw [if_pos h]

theorem cmpInt_of_eq {a b : Int} (h : a = b) : cmpInt a b = 0 := by
  unfold cmpInt; rw [if_neg (by omega), if_neg (by omega)]

theorem cmpInt_of_gt {a b : Int} (h : b < a) : cmpInt a b = 1 := by
  unfold cmpInt; rw [if_neg (by omega), if_pos h]

/-- Unfolded characterisation of the source comparator. -/
theorem compareItems_le_iff (a b : SurvItem) :
    (CompareItems a b ≤ 0) ↔
      (a.priority < b.priority ∨ (a.priority = b.priority ∧
        (b.nlink < a.nlink ∨ (a.nlink = b.nlink ∧
          (a.time < b.time ∨ (a.time = b.time ∧
            listLe (bytesOf a.path) (bytesOf b.path) = true)))))) := by
  unfold CompareItems
  rcases Nat.lt_trichotomy a.priority b.priority with h1 | h1 | h1
  · rw [cmpNat_of_lt h1]
    norm_num
    exact Or.inl h1
  · rw [cmpNat_of_eq h1]
    rcases Nat.lt_trichotomy a.nlink b.nlink with h2 | h2 | h2
    · rw [cmpNat_of_lt h2]
      norm_num
      exact ⟨by omega, fun _ => ⟨by omega, fun h => absurd h (by omega)⟩⟩
    · rw [cmpNat_of_eq h2]
      rcases Int.lt_trichotomy a.time b.time with h3 | h3 | h3
      · rw [cmpInt_of_lt h3]
        norm_num
        exact Or.inr ⟨h1, Or.inr ⟨h2, Or.inl h3⟩⟩
      · rw [cmpInt_of_eq h3]
        norm_num [cmpStr, cmpList_le_iff]
        constructor
        · intro hp
          exact Or.inr ⟨h1, Or.inr ⟨h2, Or.inr ⟨h3, hp⟩⟩⟩
        · rintro (h | ⟨he, h | ⟨hn, h | ⟨ht, hp⟩⟩⟩) <;> first | exact hp | omega
      · rw [cmpInt_of_gt h3]
        norm_num
        exact ⟨by omega, fun _ => ⟨by omega, fun _ => ⟨by omega, fun h => absurd h (by omega)⟩⟩⟩
    · rw [cmpNat_of_gt h2]
      norm_num
      exact Or.inr ⟨h1, Or.inl h2⟩
  · rw [cmpNat_of_gt h1]
    norm_num
    exact ⟨by omega, fun h => absurd h (by omega)⟩

/-- The source comparator realises exactly the ordering the
specification words: `CompareItems a b <= 0` iff `specOrderLE a b`. -/
theorem itemLe_eq_spec (a b : SurvItem) : itemLe a b = specOrderLE a b := by
  have h1 := compareItems_le_iff a b
  have h2 := specOrderLE_iff a b
  have h0 : itemLe a b = decide (CompareItems a b ≤ 0) := rfl
  cases hpl : listLe (bytesOf a.path) (bytesOf b.path) <;>
    cases hle : itemLe a b <;> cases hsp : specOrderLE a b <;>
      simp_all <;> omega

theorem itemLe_refl (a : SurvItem) : itemLe a a = true := by
  rw [itemLe_eq_spec]; exact specOrderLE_refl a

theorem itemLe_total (a b : SurvItem) : itemLe a b = true ∨ itemLe b a = true := by
  rw [itemLe_eq_spec, itemLe_eq_spec]; exact specOrderLE_total a b

theorem itemLe_trans (a b c : SurvItem) (h1 : itemLe a b = true) (h2 : itemLe b c = true) :
    itemLe a c = true := by
  rw [itemLe_eq_spec] at h1 h2 ⊢; exact specOrderLE_trans a b c h1 h2

theorem insertBy_perm (le : α → α → Bool) (x : α) :
    ∀ l : List α, (insertBy le x l).Perm (x :: l) := by
  intro l
  induction l with
  | nil => simp [insertBy]
  | cons y ys ih =>
    simp only [insertBy]
    split_ifs
    · exact List.Perm.refl _
    · exact ((ih.cons y).trans (List.Perm.swap x y ys))

theorem sortBy_perm (le : α → α → Bool) : ∀ l : List α, (sortBy le l).Perm l := by
  intro l
  induction l with
  | nil => simp [sortBy]
  | cons x xs ih =>
    exact ((insertBy_perm le x (sortBy le xs)).trans (ih.cons x))

theorem mem_insertBy {le : α → α → Bool} {x z : α} {l : List α}
    (h : z ∈ insertBy le x l) : z = x ∨ z ∈ l :=
  List.mem_cons.mp ((insertBy_perm le x l).mem_iff.mp h)

theorem insertBy_sorted (le : α → α → Bool)
    (total : ∀ a b, le a b = true ∨ le b a = true)
    (trans : ∀ a b c, le a b = true → le b c = true → le a c = true)
    (x : α) : ∀ l : List α, l.Pairwise (fun a b => le a b = true) →
    (insertBy le x l).Pairwise (fun a b => le a b = true) := by
  intro l
  induction l with
  | nil => intro _; simp [insertBy]
  | cons y ys ih =>
    intro hp
    rcases List.pairwise_cons.mp hp with ⟨hy, hys⟩
    simp only [insertBy]
    split_ifs with hxy
    · refine List.pairwise_cons.mpr ⟨?_, hp⟩
      intro z hz
      rcases List.mem_cons.mp hz with rfl | hzys
      · exact hxy
      · exact trans x y z hxy (hy z hzys)
    · refine List.pairwise_cons.mpr ⟨?_, ih hys⟩
      intro z hz
      rcases mem_insertBy hz with rfl | hzys
      · rcases total z y with h | h
        · exact absurd h hxy
        · exact h
      · exact hy z hzys

theorem sortBy_sorted (le : α → α → Bool)
    (total : ∀ a b, le a b = true ∨ le b a = true)
    (trans : ∀ a b c, le a b = true → le b c = true → le a c = true) :
    ∀ l : List α, (sortBy le l).Pairwise (fun a b => le a b = true) := by
  intro l
  induction l with
  | nil => simp [sortBy]
  | cons x xs ih => exact insertBy_sorted le total trans x (sortBy le xs) ih

theorem sorted_find?_min {le : α → α → Bool} {p : α → Bool}
    (refl : ∀ a, le a a = true) :
    ∀ l : List α, l.Pairwise (fun a b => le a b = true) →
      ∀ s, l.find? p = some s → ∀ t ∈ l, p t = true → le s t = true := by
  intro l
  induction l with
  | nil => simp
  | cons x xs ih =>
    intro hp s hf t ht hpt
    rcases List.pairwise_cons.mp hp with ⟨hx, hxs⟩
    by_cases hpx : p x = true
    · rw [List.find?_cons_of_pos _ hpx] at hf
      injection hf with hf
      subst hf
      rcases List.mem_cons.mp ht with rfl | htxs
      · exact refl _
      · exact hx t htxs
    · rw [List.find?_cons_of_neg _ (by simpa using hpx)] at hf
      rcases List.mem_cons.mp ht with rfl | htxs
      · exact absurd hpt hpx
      · exact ih hxs s hf t htxs hpt


/-! ### Decimal codec lemmas -/

theorem natDigitsGo_mem : ∀ fuel n c, c ∈ natDigitsGo fuel n → 48 ≤ c ∧ c ≤ 57 := by
  intro fuel
  induction fuel with
  | zero => intro n c h; simp [natDigitsGo] at h
  | succ fuel ih =>
    intro n c h
    simp only [natDigitsGo] at h
    split_ifs at h with h10
    · simp at h
      omega
    · rcases List.mem_append.mp h with h2 | h2
      · exact ih _ _ h2
      · simp at h2
        have : n % 10 < 10 := Nat.mod_lt _ (by omega)
        omega

theorem natDigits_mem (n c : Nat) (h : c ∈ natDigits n) : 48 ≤ c ∧ c ≤ 57 :=
  natDigitsGo_mem _ _ _ h

theorem natDigitsGo_ne_nil (fuel n : Nat) (h : 0 < fuel) : natDigitsGo fuel n ≠ [] := by
  cases fuel with
  | zero => omega
  | succ fuel =>
    simp only [natDigitsGo]
    split_ifs <;> simp

theorem natOfDigits_append (xs : List Nat) (c : Nat) :
    natOfDigits (xs ++ [c]) = natOfDigits xs * 10 + (c - 48) := by
  induction xs with
  | nil => simp [natOfDigits]
  | cons x rest ih =>
    have hl : (rest ++ [c]).length = rest.length + 1 := by simp
    simp only [List.cons_append, List.append_eq, natOfDigits, ih, hl, pow_succ]
    ring

theorem natOfDigits_natDigitsGo : ∀ fuel n, n < 10 ^ fuel →
    natOfDigits (natDigitsGo fuel n) = n := by
  intro fuel
  induction fuel with
  | zero =>
    intro n h
    simp at h
    subst h
    rfl
  | succ fuel ih =>
    intro n h
    simp only [natDigitsGo]
    split_ifs with h10
    · simp only [natOfDigits, List.length_nil, pow_zero]
      omega
    · rw [natOfDigits_append, ih (n / 10) (by
        rw [pow_succ] at h
        omega)]
      omega

theorem natOfDigits_natDigits (n : Nat) : natOfDigits (natDigits n) = n := by
  apply natOfDigits_natDigitsGo
  calc n < 10 ^ n := Nat.lt_pow_self (by norm_num) n
  _ ≤ 10 ^ (n + 1) := Nat.pow_le_pow_right (by norm_num) (by omega)

theorem natDigits_all_digits (n : Nat) : (natDigits n).all isDigit = true := by
  rw [List.all_eq_true]
  intro c hc
  have := natDigits_mem n c hc
  simp only [isDigit, Bool.and_eq_true, decide_eq_true_eq]
  omega

theorem parseInt10Core_natDigits_pos (n : Nat) (hhi : (n : Int) ≤ 2 ^ 63 - 1) :
    parseInt10Core false (natDigits n) = some ((n : Int)) := by
  have hne : ¬(natDigits n = []) := natDigitsGo_ne_nil (n + 1) n (by omega)
  simp only [parseInt10Core, natOfDigits_natDigits]
  rw [if_neg hne, if_pos (natDigits_all_digits n)]
  simp only [Bool.false_eq_true, if_false]
  rw [if_pos ⟨by omega, hhi⟩]

theorem parseInt10Core_natDigits_neg (n : Nat) (hlo : -(2 ^ 63) ≤ -(n : Int)) :
    parseInt10Core true (natDigits n) = some (-(n : Int)) := by
  have hne : ¬(natDigits n = []) := natDigitsGo_ne_nil (n + 1) n (by omega)
  simp only [parseInt10Core, natOfDigits_natDigits]
  rw [if_neg hne, if_pos (natDigits_all_digits n)]
  simp only [if_true]
  rw [if_pos ⟨hlo, by omega⟩]

theorem parseInt10_appendInt (v : Int) (h1 : -(2 ^ 63) ≤ v) (h2 : v ≤ 2 ^ 63 - 1) :
    parseInt10 (appendInt v) = some v := by
  by_cases hneg : v < 0
  · have hv : appendInt v = 45 :: natDigits (-v).toNat := by
      simp [appendInt, hneg]
    rw [hv]
    simp only [parseInt10]
    rw [if_pos trivial]
    rw [parseInt10Core_natDigits_neg (-v).toNat (by omega)]
    have he : -((-v).toNat : Int) = v := by omega
    rw [he]
    norm_num
  · have hv : appendInt v = natDigits v.toNat := by
      simp [appendInt, hneg]
    rw [hv]
    cases hnd : natDigits v.toNat with
    | nil => exact absurd hnd (natDigitsGo_ne_nil _ _ (by omega))
    | cons c cs =>
      have hc : 48 ≤ c ∧ c ≤ 57 := natDigits_mem v.toNat c (by rw [hnd]; simp)
      simp only [parseInt10]
      rw [if_neg (by omega), if_neg (by omega), ← hnd]
      rw [parseInt10Core_natDigits_pos v.toNat (by omega)]
      have he : (v.toNat : Int) = v := by omega
      rw [he]

theorem decodeInt_appendInt (v : Int) (h1 : -(2 ^ 63) ≤ v) (h2 : v ≤ 2 ^ 63 - 1) :
    decodeInt (appendInt v) = some v := by
  unfold decodeInt
  rw [parseInt10_appendInt v h1 h2]

theorem appendInt_mem (v : Int) (c : Nat) (h : c ∈ appendInt v) :
    c = 45 ∨ (48 ≤ c ∧ c ≤ 57) := by
  unfold appendInt at h
  split_ifs at h
  · rcases List.mem_cons.mp h with rfl | h2
    · left; rfl
    · right; exact natDigits_mem _ _ h2
  · right; exact natDigits_mem _ _ h

/-! ### Base64 codec lemmas -/

theorem b64CharStd_props : ∀ s, s < 64 →
    (b64ValStd (b64CharStd s) = some s ∧ b64CharStd s ≠ 61 ∧
      b64CharStd s ≠ 44 ∧ b64CharStd s ≠ 58) := by decide

theorem b64Encode_length (ch : Nat → Nat) :
    ∀ l : List Nat, (b64Encode ch l).length = b64EncodedLen l.length
  | [] => by simp [b64Encode, b64EncodedLen]
  | [b0] => by simp [b64Encode, b64EncodedLen]
  | [b0, b1] => by simp [b64Encode, b64EncodedLen]
  | b0 :: b1 :: b2 :: rest => by
    have ih := b64Encode_length ch rest
    simp only [b64Encode, List.length_cons, List.length_append, ih, b64EncodedLen]
    omega

theorem b64Encode_mem :
    ∀ l : List Nat, (∀ b ∈ l, b < 256) → ∀ c ∈ b64Encode b64CharStd l,
      c ≠ 44 ∧ c ≠ 58
  | [], _, c, hc => by simp [b64Encode] at hc
  | [b0], h, c, hc => by
    have hb0 : b0 < 256 := h b0 (by simp)
    simp only [b64Encode, List.mem_cons, List.mem_singleton] at hc
    rcases hc with rfl | rfl | rfl | h2
    · exact (b64CharStd_props _ (by omega)).2.2
    · exact (b64CharStd_props _ (by omega)).2.2
    · exact ⟨by omega, by omega⟩
    · simp at h2
      omega
  | [b0, b1], h, c, hc => by
    have hb0 : b0 < 256 := h b0 (by simp)
    have hb1 : b1 < 256 := h b1 (by simp)
    simp only [b64Encode, List.mem_cons, List.mem_singleton] at hc
    rcases hc with rfl | rfl | rfl | rfl | h2
    · exact (b64CharStd_props _ (by omega)).2.2
    · exact (b64CharStd_props _ (by omega)).2.2
    · exact (b64CharStd_props _ (by omega)).2.2
    · exact ⟨by omega, by omega⟩
    · simp at h2
  | b0 :: b1 :: b2 :: rest, h, c, hc => by
    have hb0 : b0 < 256 := h b0 (by simp)
    have hb1 : b1 < 256 := h b1 (by simp)
    have hb2 : b2 < 256 := h b2 (by simp)
    simp only [b64Encode, List.mem_cons, List.mem_append] at hc
    rcases hc with rfl | rfl | rfl | rfl | h2
    · exact (b64CharStd_props _ (by omega)).2.2
    · exact (b64CharStd_props _ (by omega)).2.2
    · exact (b64CharStd_props _ (by omega)).2.2
    · exact (b64CharStd_props _ (by omega)).2.2
    · exact b64Encode_mem rest (fun b hb => h b (by simp [hb])) c h2

theorem b64_roundtrip :
    ∀ l : List Nat, (∀ b ∈ l, b < 256) →
      b64Decode b64ValStd l.length (b64Encode b64CharStd l) = .ok l
  | [], _ => by simp [b64Encode, b64Decode]
  | [b0], h => by
    have hb0 : b0 < 256 := h b0 (by simp)
    have p0 := b64CharStd_props (b0 / 4) (by omega)
    have p1 := b64CharStd_props (b0 % 4 * 16) (by omega)
    simp only [b64Encode, b64Decode, p0.1, p1.1, List.length_singleton]
    norm_num
    omega
  | [b0, b1], h => by
    have hb0 : b0 < 256 := h b0 (by simp)
    have hb1 : b1 < 256 := h b1 (by simp)
    have p0 := b64CharStd_props (b0 / 4) (by omega)
    have p1 := b64CharStd_props (b0 % 4 * 16 + b1 / 16) (by omega)
    have p2 := b64CharStd_props (b1 % 16 * 4) (by omega)
    simp only [b64Encode, b64Decode, p0.1, p1.1, p2.1]
    rw [if_neg p2.2.1]
    norm_num
    constructor
    · omega
    · omega
  | b0 :: b1 :: b2 :: rest, h => by
    have hb0 : b0 < 256 := h b0 (by simp)
    have hb1 : b1 < 256 := h b1 (by simp)
    have hb2 : b2 < 256 := h b2 (by simp)
    have p0 := b64CharStd_props (b0 / 4) (by omega)
    have p1 := b64CharStd_props (b0 % 4 * 16 + b1 / 16) (by omega)
    have p2 := b64CharStd_props (b1 % 16 * 4 + b2 / 64) (by omega)
    have p3 := b64CharStd_props (b2 % 64) (by omega)
    have ih := b64_roundtrip rest (fun b hb => h b (by simp [hb]))
    simp only [b64Encode, b64Decode, p0.1, p1.1, p2.1, p3.1, List.length_cons]
    rw [if_neg p2.2.1, if_neg p3.2.1]
    rw [if_neg (by omega)]
    have hdst : rest.length + 1 + 1 + 1 - 3 = rest.length := by omega
    rw [hdst, ih]
    have e0 : b0 / 4 * 4 + (b0 % 4 * 16 + b1 / 16) / 16 = b0 := by omega
    have e1 : (b0 % 4 * 16 + b1 / 16) % 16 * 16 + (b1 % 16 * 4 + b2 / 64) / 4 = b1 := by
      omega
    have e2 : (b1 % 16 * 4 + b2 / 64) % 4 * 64 + b2 % 64 = b2 := by omega
    rw [e0, e1, e2]

/-! ### Splitting lemmas for the combined stamp -/

theorem splitOnComma_ne_nil : ∀ l : List Nat, splitOnComma l ≠ [] := by
  intro l
  induction l with
  | nil => simp [splitOnComma]
  | cons c rest ih =>
    simp only [splitOnComma]
    split_ifs
    · simp
    · cases h : splitOnComma rest <;> simp

theorem splitOnComma_no_sep : ∀ l : List Nat, 44 ∉ l → splitOnComma l = [l] := by
  intro l
  induction l with
  | nil => intro _; rfl
  | cons c rest ih =>
    intro h
    have hc : ¬(c = 44) := fun hc => h (by simp [hc])
    have hrest : 44 ∉ rest := fun hr => h (by simp [hr])
    simp only [splitOnComma, if_neg hc, ih hrest]

theorem splitOnComma_append : ∀ a b : List Nat, 44 ∉ a →
    splitOnComma (a ++ 44 :: b) = a :: splitOnComma b := by
  intro a
  induction a with
  | nil =>
    intro b _
    simp [splitOnComma]
  | cons c rest ih =>
    intro b h
    have hc : ¬(c = 44) := fun hc => h (by simp [hc])
    have hrest : 44 ∉ rest := fun hr => h (by simp [hr])
    simp only [List.cons_append, List.append_eq, splitOnComma, if_neg hc, ih b hrest]

theorem cutColon_append : ∀ k v : List Nat, 58 ∉ k →
    cutColon (k ++ 58 :: v) = (k, v, true) := by
  intro k
  induction k with
  | nil =>
    intro v _
    simp [cutColon]
  | cons c rest ih =>
    intro v h
    have hc : ¬(c = 58) := fun hc => h (by simp [hc])
    have hrest : 58 ∉ rest := fun hr => h (by simp [hr])
    simp only [List.cons_append, List.append_eq, cutColon, if_neg hc, ih v hrest]

/-- A base64-encoded digest of width 16, 20 or 32 decodes back to the
digest: the raw branch misses (the encoding is longer than the width),
the hex branch is skipped (the encoding is shorter than double the
width), and the standard-base64 branch succeeds. -/
theorem decodeHash_b64 (l : List Nat) (hb : ∀ b ∈ l, b < 256)
    (hw : l.length = 16 ∨ l.length = 20 ∨ l.length = 32) :
    decodeHash l.length (b64Encode b64CharStd l) = .ok l := by
  have hlen : (b64Encode b64CharStd l).length = b64EncodedLen l.length :=
    b64Encode_length _ l
  have hrt := b64_roundtrip l hb
  rcases hw with hw | hw | hw <;>
    rw [hw] at hlen hrt ⊢ <;>
    simp only [decodeHash, hlen] <;>
    norm_num [b64EncodedLen] <;>
    rw [hrt] <;>
    simp [hw]

theorem decodePair_size (meta : Metadata) (v : Int)
    (h1 : -(2 ^ 63) ≤ v) (h2 : v ≤ 2 ^ 63 - 1) :
    meta.decodePair (bytesOf "size" ++ 58 :: appendInt v) =
      some { meta with size := v, bits := meta.bits ||| SizeBit } := by
  unfold Metadata.decodePair
  rw [cutColon_append _ _ (by decide)]
  simp only [show equalFold (bytesOf "size") (bytesOf "size") = true from by decide,
    Bool.and_self, Bool.true_and, Bool.and_true, if_true]
  simp [Metadata.decodeSize, decodeInt_appendInt v h1 h2]

theorem decodePair_modTime (meta : Metadata) (v : Int)
    (h1 : -(2 ^ 63) ≤ v) (h2 : v ≤ 2 ^ 63 - 1) :
    meta.decodePair (bytesOf "modTime" ++ 58 :: appendInt v) =
      some { meta with time := v, bits := meta.bits ||| TimeBit } := by
  unfold Metadata.decodePair
  rw [cutColon_append _ _ (by decide)]
  simp only [show equalFold (bytesOf "modTime") (bytesOf "size") = false from by decide,
    show equalFold (bytesOf "modTime") (bytesOf "modTime") = true from by decide,
    Bool.and_self, Bool.true_and, Bool.and_true, Bool.and_false, Bool.false_and,
    if_true, if_false]
  simp [Metadata.decodeModTime, decodeInt_appendInt v h1 h2]

theorem decodePair_md5 (meta : Metadata) (l : List Nat)
    (hl : l.length = 16) (hb : ∀ b ∈ l, b < 256) :
    meta.decodePair (bytesOf "md5" ++ 58 :: b64Encode b64CharStd l) =
      some { meta with md5 := l, bits := meta.bits ||| MD5Bit } := by
  unfold Metadata.decodePair
  rw [cutColon_append _ _ (by decide)]
  simp only [show equalFold (bytesOf "md5") (bytesOf "size") = false from by decide,
    show equalFold (bytesOf "md5") (bytesOf "modTime") = false from by decide,
    show equalFold (bytesOf "md5") (bytesOf "md5") = true from by decide,
    Bool.and_self, Bool.true_and, Bool.and_true, Bool.and_false, Bool.false_and,
    if_true, if_false]
  have hd := decodeHash_b64 l hb (Or.inl hl)
  rw [hl] at hd
  simp [Metadata.decodeMD5, hd]

theorem decodePair_sha1 (meta : Metadata) (l : List Nat)
    (hl : l.length = 20) (hb : ∀ b ∈ l, b < 256) :
    meta.decodePair (bytesOf "sha1" ++ 58 :: b64Encode b64CharStd l) =
      some { meta with sha1 := l, bits := meta.bits ||| SHA1Bit } := by
  unfold Metadata.decodePair
  rw [cutColon_append _ _ (by decide)]
  simp only [show equalFold (bytesOf "sha1") (bytesOf "size") = false from by decide,
    show equalFold (bytesOf "sha1") (bytesOf "modTime") = false from by decide,
    show equalFold (bytesOf "sha1") (bytesOf "md5") = false from by decide,
    show equalFold (bytesOf "sha1") (bytesOf "sha1") = true from by decide,
    Bool.and_self, Bool.true_and, Bool.and_true, Bool.and_false, Bool.false_and,
    if_true, if_false]
  have hd := decodeHash_b64 l hb (Or.inr (Or.inl hl))
  rw [hl] at hd
  simp [Metadata.decodeSHA1, hd]

theorem decodePair_sha256 (meta : Metadata) (l : List Nat)
    (hl : l.length = 32) (hb : ∀ b ∈ l, b < 256) :
    meta.decodePair (bytesOf "sha256" ++ 58 :: b64Encode b64CharStd l) =
      some { meta with sha256 := l, bits := meta.bits ||| SHA256Bit } := by
  unfold Metadata.decodePair
  rw [cutColon_append _ _ (by decide)]
  simp only [show equalFold (bytesOf "sha256") (bytesOf "size") = false from by decide,
    show equalFold (bytesOf "sha256") (bytesOf "modTime") = false from by decide,
    show equalFold (bytesOf "sha256") (bytesOf "md5") = false from by decide,
    show equalFold (bytesOf "sha256") (bytesOf "sha1") = false from by decide,
    show equalFold (bytesOf "sha256") (bytesOf "sha256") = true from by decide,
    Bool.and_self, Bool.true_and, Bool.and_true, Bool.and_false, Bool.false_and,
    if_true, if_false]
  have hd := decodeHash_b64 l hb (Or.inr (Or.inr hl))
  rw [hl] at hd
  simp [Metadata.decodeSHA256, hd]

/-! ### Glob scanner simulation lemmas -/

theorem exceptIsOk_map {ε α β : Type} (f : α → β) (e : Except ε α) :
    (e.map f).isOk = e.isOk := by
  cases e <;> rfl

theorem scanGlob_default (d c : Nat) (rest : List Nat)
    (h91 : ¬c = 91) (h123 : ¬c = 123) (h125 : ¬c = 125) :
    scanGlob d (c :: rest) = scanGlob d rest := by
  rw [scanGlob]
  rw [if_neg h91, if_neg h123, if_neg h125]

theorem scanGlob_brace (d : Nat) (rest : List Nat) :
    scanGlob d (123 :: rest) = scanGlob (d + 1) rest := by
  rw [scanGlob]
  norm_num

theorem scanGlob_closeBrace (d : Nat) (rest : List Nat) :
    scanGlob d (125 :: rest) = scanGlob (if 0 < d then d - 1 else d) rest := by
  rw [scanGlob]
  norm_num

theorem scanGlob_bracket (d : Nat) (rest r : List Nat) (h : classScan rest = some r) :
    scanGlob d (91 :: rest) = scanGlob d r := by
  rw [scanGlob]
  rw [if_pos rfl]
  split
  · rename_i heq
    rw [h] at heq
    cases heq
  · rename_i r2 heq
    rw [h] at heq
    injection heq with heq
    subst heq
    rfl

theorem scanGlob_dropSlashes : ∀ (rest : List Nat) (d : Nat),
    scanGlob d (rest.dropWhile (· == 47)) = scanGlob d rest := by
  intro rest
  induction rest with
  | nil => intro d; simp [List.dropWhile]
  | cons c rs ih =>
    intro d
    by_cases h47 : c = 47
    · subst h47
      rw [List.dropWhile_cons_of_pos (by simp)]
      rw [ih d]
      rw [scanGlob_default d 47 rs (by omega) (by omega) (by omega)]
    · rw [List.dropWhile_cons_of_neg (by simp [h47])]

theorem classScan_escape (c2 : Nat) (rest2 : List Nat) :
    classScan (92 :: c2 :: rest2) = classScan rest2 := by
  rw [classScan.eq_def]
  norm_num

theorem classScan_closer (rest : List Nat) : classScan (93 :: rest) = some rest := by
  rw [classScan.eq_def]
  norm_num

theorem classScan_other (c : Nat) (rest : List Nat) (h92 : ¬c = 92) (h93 : ¬c = 93) :
    classScan (c :: rest) = classScan rest := by
  rw [classScan.eq_def]
  simp only [if_neg h92, if_neg h93]

theorem classScan_of_bracketBody : (l : List Nat) → ∀ out r,
    bracketBody false l = some (out, r) → classScan l = some r
  | [] => by intro out r h; simp [bracketBody] at h
  | c :: rest => by
    intro out r h
    simp only [bracketBody, Bool.false_eq_true, if_false] at h
    by_cases h92 : c = 92
    · subst h92
      rw [if_pos rfl] at h
      cases rest with
      | nil => simp [bracketBody] at h
      | cons c2 rest2 =>
        simp only [bracketBody, if_pos rfl] at h
        cases hb : bracketBody false rest2 with
        | none => rw [hb] at h; simp at h
        | some p =>
          obtain ⟨o2, r2⟩ := p
          rw [hb] at h
          injection h with h
          injection h with h1 h2
          subst h2
          rw [classScan_escape c2 rest2]
          exact classScan_of_bracketBody rest2 o2 r2 hb
    · rw [if_neg h92] at h
      by_cases h93 : c = 93
      · subst h93
        rw [if_pos rfl] at h
        injection h with h
        injection h with h1 h2
        subst h2
        exact classScan_closer rest
      · rw [if_neg h93] at h
        cases hb : bracketBody false rest with
        | none => rw [hb] at h; simp at h
        | some p =>
          obtain ⟨o2, r2⟩ := p
          rw [hb] at h
          injection h with h
          injection h with h1 h2
          subst h2
          rw [classScan_other c rest h92 h93]
          exact classScan_of_bracketBody rest o2 r2 hb

theorem classScan_of_bracketArm (rest : List Nat) (neg : Bool) (body rest2 : List Nat)
    (h : bracketArm rest = some (neg, body, rest2)) : classScan rest = some rest2 := by
  cases rest with
  | nil => simp [bracketArm] at h
  | cons c r =>
    by_cases h94 : c = 94
    · subst h94
      simp only [bracketArm, if_pos rfl] at h
      cases hb : bracketBody false r with
      | none => rw [hb] at h; simp at h
      | some p =>
        obtain ⟨o3, r3⟩ := p
        rw [hb] at h
        injection h with h
        injection h with h1 h
        injection h with h2 h3
        subst h3
        rw [classScan_other 94 r (by omega) (by omega)]
        exact classScan_of_bracketBody r o3 r3 hb
    · simp only [bracketArm, if_neg h94] at h
      cases hb : bracketBody false (c :: r) with
      | none => rw [hb] at h; simp at h
      | some p =>
        obtain ⟨o3, r3⟩ := p
        rw [hb] at h
        injection h with h
        injection h with h1 h
        injection h with h2 h3
        subst h3
        exact classScan_of_bracketBody (c :: r) o3 r3 hb

/-- Simulation: whenever the compiler machine finishes successfully,
the specification scanner finds every character class terminated and a
final brace depth of zero. -/
theorem runMachine_ok_scan : ∀ (depth : Nat) (input : List Nat),
    (runMachine depth input).isOk = true → scanGlob depth input = (false, 0) := by
  intro depth input
  induction depth, input using runMachine.induct with
  | case1 depth hd =>
    intro h
    rw [runMachine.eq_1, if_pos hd] at h
    simp [Except.isOk, Except.toBool] at h
  | case2 depth hd =>
    intro _
    rw [scanGlob.eq_1]
    have : depth = 0 := by omega
    simp [this]
  | case3 depth rest =>
    intro h
    rw [runMachine.eq_2, if_pos rfl] at h
    simp [Except.isOk, Except.toBool] at h
  | case4 depth rest hlen h92 ih =>
    intro h
    rw [runMachine.eq_2] at h
    rw [if_neg (by omega : ¬(47 : Nat) = 92), if_pos rfl] at h
    simp only [exceptIsOk_map] at h
    rw [scanGlob_default depth 47 rest (by omega) (by omega) (by omega)]
    rw [← scanGlob_dropSlashes rest depth]
    exact ih h
  | case5 depth rest hhd htl h92 h47 ih =>
    intro h
    rw [runMachine.eq_2] at h
    rw [if_neg (by omega : ¬(42 : Nat) = 92), if_neg (by omega : ¬(42 : Nat) = 47),
      if_pos rfl, if_pos hhd] at h
    simp only [exceptIsOk_map] at h
    have hres := ih h
    obtain ⟨c2, r2, hr⟩ : ∃ c2 r2, rest = c2 :: r2 := by
      cases rest with
      | nil => simp at hhd
      | cons a b => exact ⟨a, b, rfl⟩
    subst hr
    simp only [List.head?_cons, Option.some.injEq] at hhd
    subst hhd
    rw [scanGlob_default depth 42 (42 :: r2) (by omega) (by omega) (by omega)]
    rw [scanGlob_default depth 42 r2 (by omega) (by omega) (by omega)]
    exact hres
  | case6 depth rest hne h92 h47 ih =>
    intro h
    rw [runMachine.eq_2] at h
    rw [if_neg (by omega : ¬(42 : Nat) = 92), if_neg (by omega : ¬(42 : Nat) = 47),
      if_pos rfl, if_neg hne] at h
    simp only [exceptIsOk_map] at h
    rw [scanGlob_default depth 42 rest (by omega) (by omega) (by omega)]
    exact ih h
  | case7 depth rest h92 h47 h42 ih =>
    intro h
    rw [runMachine.eq_2] at h
    rw [if_neg (by omega : ¬(63 : Nat) = 92), if_neg (by omega : ¬(63 : Nat) = 47),
      if_neg (by omega : ¬(63 : Nat) = 42), if_pos rfl] at h
    simp only [exceptIsOk_map] at h
    rw [scanGlob_default depth 63 rest (by omega) (by omega) (by omega)]
    exact ih h
  | case8 depth rest hb h92 h47 h42 h63 =>
    intro h
    rw [runMachine.eq_2] at h
    rw [if_neg (by omega : ¬(91 : Nat) = 92), if_neg (by omega : ¬(91 : Nat) = 47),
      if_neg (by omega : ¬(91 : Nat) = 42), if_neg (by omega : ¬(91 : Nat) = 63),
      if_pos rfl] at h
    split at h
    · simp [Except.isOk, Except.toBool] at h
    · rename_i neg body rest2 heq
      rw [hb] at heq
      cases heq
  | case9 depth rest neg body rest2 hb hlen h92 h47 h42 h63 ih =>
    intro h
    rw [runMachine.eq_2] at h
    rw [if_neg (by omega : ¬(91 : Nat) = 92), if_neg (by omega : ¬(91 : Nat) = 47),
      if_neg (by omega : ¬(91 : Nat) = 42), if_neg (by omega : ¬(91 : Nat) = 63),
      if_pos rfl] at h
    rw [scanGlob_bracket depth rest rest2 (classScan_of_bracketArm rest neg body rest2 hb)]
    split at h
    · rename_i heq
      rw [hb] at heq
      cases heq
    · rename_i neg2 body2 rest22 heq
      rw [hb] at heq
      injection heq with heq
      injection heq with h1 heq
      injection heq with h2 h3
      subst h3
      simp only [exceptIsOk_map] at h
      exact ih h
  | case10 depth rest h92 h47 h42 h63 h91 ih =>
    intro h
    rw [runMachine.eq_2] at h
    rw [if_neg (by omega : ¬(123 : Nat) = 92), if_neg (by omega : ¬(123 : Nat) = 47),
      if_neg (by omega : ¬(123 : Nat) = 42), if_neg (by omega : ¬(123 : Nat) = 63),
      if_neg (by omega : ¬(123 : Nat) = 91), if_pos rfl] at h
    simp only [exceptIsOk_map] at h
    rw [scanGlob_brace depth rest]
    exact ih h
  | case11 depth c rest h92 h47 h42 h63 h91 h123 hc ih =>
    intro h
    have hc44 : c = 44 ∧ 0 < depth := by simpa using hc
    rw [runMachine.eq_2] at h
    rw [if_neg h92, if_neg h47, if_neg h42, if_neg h63, if_neg h91, if_neg h123,
      if_pos hc] at h
    simp only [exceptIsOk_map] at h
    rw [scanGlob_default depth c rest (by omega) (by omega) (by omega)]
    exact ih h
  | case12 depth c rest h92 h47 h42 h63 h91 h123 hnc hc ih =>
    intro h
    have hc125 : c = 125 ∧ 0 < depth := by simpa using hc
    rw [runMachine.eq_2] at h
    rw [if_neg h92, if_neg h47, if_neg h42, if_neg h63, if_neg h91, if_neg h123,
      if_neg hnc, if_pos hc] at h
    simp only [exceptIsOk_map] at h
    obtain ⟨hc1, hc2⟩ := hc125
    subst hc1
    rw [scanGlob_closeBrace depth rest, if_pos hc2]
    exact ih h
  | case13 depth c rest h92 h47 h42 h63 h91 h123 hnc hnc2 ih =>
    intro h
    rw [runMachine.eq_2] at h
    rw [if_neg h92, if_neg h47, if_neg h42, if_neg h63, if_neg h91, if_neg h123,
      if_neg hnc, if_neg hnc2] at h
    simp only [exceptIsOk_map] at h
    by_cases h125 : c = 125
    · subst h125
      have hd0 : ¬0 < depth := by
        intro hdep
        exact hnc2 (by simp [hdep])
      rw [scanGlob_closeBrace depth rest, if_neg hd0]
      exact ih h
    · rw [scanGlob_default depth c rest (by omega) (by omega) h125]
      exact ih h

theorem decode_go_nil (meta : Metadata) : Metadata.Decode.go meta [] = some meta := by
  simp only [Metadata.Decode.go]

theorem decode_go_cons (meta : Metadata) (raw : List Nat) (rest : List (List Nat))
    (m2 : Metadata) (h : meta.decodePair raw = some m2) :
    Metadata.Decode.go meta (raw :: rest) = Metadata.Decode.go m2 rest := by
  simp only [Metadata.Decode.go, h]

/-! ## Claims -/

/-- C3 counterexample: under the default namespace `user.dedupe.`, the
extended-attribute name used for the per-field size attribute is the
legacy `user.size`, which does not begin with the configured
namespace. -/
theorem c3_counterexample :
    (configuredNames "user.dedupe.").Size = "user.size" ∧
    (bytesOf "user.dedupe.").isPrefixOf
      (bytesOf (configuredNames "user.dedupe.").Size) = false := by
  constructor
  · rfl
  · decide

/-- C3 (amended): for every configured namespace `ns`, only the combined
stamp attribute is stored under a name beginning with `ns` (it is
exactly `ns ++ "stamp"`); the five per-field attributes always use the
fixed legacy names `user.size`, `user.mtime`, `user.md5sum`,
`user.sha1sum` and `user.sha256sum`, independent of `ns`. -/
theorem c3_amended (ns : String) :
    (configuredNames ns).Stamp = ns ++ "stamp" ∧
    (bytesOf ns).isPrefixOf (bytesOf (configuredNames ns).Stamp) = true ∧
    (configuredNames ns).Size = "user.size" ∧
    (configuredNames ns).Time = "user.mtime" ∧
    (configuredNames ns).MD5 = "user.md5sum" ∧
    (configuredNames ns).SHA1 = "user.sha1sum" ∧
    (configuredNames ns).SHA256 = "user.sha256sum" := by
  refine ⟨rfl, ?_, rfl, rfl, rfl, rfl, rfl⟩
  have hsplit : bytesOf (configuredNames ns).Stamp = bytesOf ns ++ bytesOf "stamp" := by
    show bytesOf (ns ++ "stamp") = _
    simp [bytesOf]
  rw [hsplit]
  exact isPrefixOf_append_self _ _

/-- C9 counterexample: `(*Item).Close` of cmd/find-duplicate-files reads
`item.File` without a nil-receiver guard, so calling it on a nil `*Item`
dereferences a nil pointer — the fault outcome (`none`) of the model —
rather than performing no operation. -/
theorem c9_counterexample : cmdItemClose none = none := rfl

/-- C9 (amended): `Close` is idempotent and safe on an absent handle for
both `Item` types — the first call clears the handle field and closes
the underlying handle at most once, and every further call is a no-op —
and the shared `internal/item` `Close` additionally tolerates a nil
receiver; the find-duplicate-files `Close` requires a non-nil
receiver. -/
theorem c9_amended (it : ItemFD) :
    itemClose none = (none, 0) ∧
    (itemClose (some it)).1 = some { it with file := none } ∧
    (itemClose (some it)).2 ≤ 1 ∧
    itemClose (itemClose (some it)).1 = (some { it with file := none }, 0) ∧
    cmdItemClose (some it) = some ((itemClose (some it)).1, (itemClose (some it)).2) ∧
    cmdItemClose (some { it with file := none }) = some (some { it with file := none }, 0) := by
  cases hf : it.file <;>
    simp [itemClose, cmdItemClose, hf]

/-- C5: combined-stamp round trip for the internal metadata codec.  For
every complete Metadata value (all five presence bits set and no
others, digests of their correct widths with byte values, integers in
the signed 64-bit range), decoding the combined stamp produced by
`Append` into an empty Metadata yields the value back exactly, with all
five bits reported present. -/
theorem c5_round_trip (m : Metadata)
    (hbits : m.bits = AllBits)
    (hm : m.md5.length = 16) (hmb : ∀ b ∈ m.md5, b < 256)
    (hs1 : m.sha1.length = 20) (hs1b : ∀ b ∈ m.sha1, b < 256)
    (hs2 : m.sha256.length = 32) (hs2b : ∀ b ∈ m.sha256, b < 256)
    (hsz1 : -(2 ^ 63) ≤ m.size) (hsz2 : m.size ≤ 2 ^ 63 - 1)
    (ht1 : -(2 ^ 63) ≤ m.time) (ht2 : m.time ≤ 2 ^ 63 - 1) :
    Metadata.empty.Decode m.Append = some (m, true) := by
  have n1 : (44 : Nat) ∉ bytesOf "size" ++ 58 :: appendInt m.size := by
    intro h
    rcases List.mem_append.mp h with h | h
    · revert h; decide
    · rcases List.mem_cons.mp h with h | h
      · exact absurd h (by decide)
      · rcases appendInt_mem _ _ h with h | h <;> omega
  have n2 : (44 : Nat) ∉ bytesOf "modTime" ++ 58 :: appendInt m.time := by
    intro h
    rcases List.mem_append.mp h with h | h
    · revert h; decide
    · rcases List.mem_cons.mp h with h | h
      · exact absurd h (by decide)
      · rcases appendInt_mem _ _ h with h | h <;> omega
  have n3 : (44 : Nat) ∉ bytesOf "md5" ++ 58 :: b64Encode b64CharStd m.md5 := by
    intro h
    rcases List.mem_append.mp h with h | h
    · revert h; decide
    · rcases List.mem_cons.mp h with h | h
      · exact absurd h (by decide)
      · exact (b64Encode_mem m.md5 hmb 44 h).1 rfl
  have n4 : (44 : Nat) ∉ bytesOf "sha1" ++ 58 :: b64Encode b64CharStd m.sha1 := by
    intro h
    rcases List.mem_append.mp h with h | h
    · revert h; decide
    · rcases List.mem_cons.mp h with h | h
      · exact absurd h (by decide)
      · exact (b64Encode_mem m.sha1 hs1b 44 h).1 rfl
  have n5 : (44 : Nat) ∉ bytesOf "sha256" ++ 58 :: b64Encode b64CharStd m.sha256 := by
    intro h
    rcases List.mem_append.mp h with h | h
    · revert h; decide
    · rcases List.mem_cons.mp h with h | h
      · exact absurd h (by decide)
      · exact (b64Encode_mem m.sha256 hs2b 44 h).1 rfl
  have happ : m.Append =
      (bytesOf "size" ++ 58 :: appendInt m.size) ++ 44 ::
        ((bytesOf "modTime" ++ 58 :: appendInt m.time) ++ 44 ::
          ((bytesOf "md5" ++ 58 :: b64Encode b64CharStd m.md5) ++ 44 ::
            ((bytesOf "sha1" ++ 58 :: b64Encode b64CharStd m.sha1) ++ 44 ::
              (bytesOf "sha256" ++ 58 :: b64Encode b64CharStd m.sha256)))) := by
    simp [Metadata.Append, appendHash, bytesOf, List.append_assoc]
  have hsplit : splitOnComma m.Append =
      [bytesOf "size" ++ 58 :: appendInt m.size,
        bytesOf "modTime" ++ 58 :: appendInt m.time,
        bytesOf "md5" ++ 58 :: b64Encode b64CharStd m.md5,
        bytesOf "sha1" ++ 58 :: b64Encode b64CharStd m.sha1,
        bytesOf "sha256" ++ 58 :: b64Encode b64CharStd m.sha256] := by
    rw [happ, splitOnComma_append _ _ n1, splitOnComma_append _ _ n2,
      splitOnComma_append _ _ n3, splitOnComma_append _ _ n4,
      splitOnComma_no_sep _ n5]
  unfold Metadata.Decode
  rw [hsplit]
  rw [decode_go_cons _ _ _ _ (decodePair_size Metadata.empty m.size hsz1 hsz2)]
  rw [decode_go_cons _ _ _ _ (decodePair_modTime _ m.time ht1 ht2)]
  rw [decode_go_cons _ _ _ _ (decodePair_md5 _ m.md5 hm hmb)]
  rw [decode_go_cons _ _ _ _ (decodePair_sha1 _ m.sha1 hs1 hs1b)]
  rw [decode_go_cons _ _ _ _ (decodePair_sha256 _ m.sha256 hs2 hs2b)]
  rw [decode_go_nil]
  obtain ⟨bits, size, time, md5, sha1, sha256⟩ := m
  simp only [AllBits] at hbits
  subst hbits
  simp [Metadata.empty, Bits.HasAll, SizeBit, TimeBit, MD5Bit, SHA1Bit, SHA256Bit, AllBits]

/-- Witness for C5 at a concrete complete Metadata value (size 100,
time 1700000000, fixed digest bytes). -/
theorem c5_round_trip_witness :
    ((⟨31, 100, 1700000000, List.replicate 16 0, List.replicate 20 1,
        List.replicate 32 2⟩ : Metadata).bits = AllBits ∧
      (⟨31, 100, 1700000000, List.replicate 16 0, List.replicate 20 1,
        List.replicate 32 2⟩ : Metadata).md5.length = 16) ∧
    Metadata.empty.Decode
      (⟨31, 100, 1700000000, List.replicate 16 0, List.replicate 20 1,
        List.replicate 32 2⟩ : Metadata).Append =
      some (⟨31, 100, 1700000000, List.replicate 16 0, List.replicate 20 1,
        List.replicate 32 2⟩, true) :=
  ⟨⟨by decide, by decide⟩,
    c5_round_trip _ (by decide) (by decide) (by decide) (by decide) (by decide)
      (by decide) (by decide) (by decide) (by decide) (by decide) (by decide)⟩

/-- C6: the find-duplicate-files `DecodeInt` is gated on the regular
expression `0|[1-9][0-9]+`, which rejects the single-digit decimal
strings its own `EncodeInt` produces, while the internal
`metadata.decodeInt` accepts them; evaluated at the failing input
`"5"`. -/
theorem c6_single_digit :
    cmdEncodeInt 5 = bytesOf "5" ∧
    cmdDecodeInt (bytesOf "5") = none ∧
    decodeInt (bytesOf "5") = some 5 ∧
    reIntMatch (bytesOf "5") = false ∧
    cmdDecodeInt (bytesOf "0") = some 0 ∧
    cmdDecodeInt (bytesOf "42") = some 42 := by decide

/-- A 32-byte digest whose standard and URL-safe base64 encodings
differ (its leading `0xFF` bytes produce `/` and `_`). -/
def c4Digest : List Nat := [255, 255, 255] ++ List.range 29

/-- C4: the four accepted encodings of one fixed 32-byte digest — raw
bytes, lowercase hex, standard base64, URL-safe base64 — all decode to
the same digest bytes, in the claimed priority order; but the length
guards are lower bounds rather than exact-length checks, so a
34-character hex string offered for a 16-byte digest is attempted and
overruns the output buffer (`hex.Decode` writes byte 17 of 16 — a
runtime panic), where the claim requires the hex candidate to be
skipped and the decode to fail cleanly. -/
theorem c4_decode_hash :
    decodeHash 32 c4Digest = .ok c4Digest ∧
    decodeHash 32 (hexEncode c4Digest) = .ok c4Digest ∧
    decodeHash 32 (b64Encode b64CharStd c4Digest) = .ok c4Digest ∧
    decodeHash 32 (b64Encode b64CharURL c4Digest) = .ok c4Digest ∧
    decodeHash 16 (List.replicate 34 48) = .panic := by decide

/-- C1: two-phase grouping of the scan output.  For every digest `hsh`,
if paths `A` and `B` belong to one physical inode `(d, i)` (one `seen`
entry, since the scan key is (digest, dev, ino)) and path `C` carries
the same digest on a distinct inode `(d2, i2)`, then the pipeline of
main.go lines 50-82 emits exactly one group for that digest, consisting
of the lexicographically smallest of `A`/`B` together with `C` (in one
of the two orders), and the larger of `A`/`B` — hence the triple
`{A, B, C}` — is never emitted. -/
theorem c1_two_phase (hsh : List Nat) (d i d2 i2 : Nat) (A B C : String)
    (hAB : A ≠ B) (hAC : A ≠ C) (hBC : B ≠ C)
    (hinode : (d, i) ≠ (d2, i2)) :
    (twoPhase [(⟨hsh, d, i⟩, [A, B]), (⟨hsh, d2, i2⟩, [C])] =
        [[if strLe A B then A else B, C]] ∨
      twoPhase [(⟨hsh, d, i⟩, [A, B]), (⟨hsh, d2, i2⟩, [C])] =
        [[C, if strLe A B then A else B]]) ∧
    ∀ g ∈ twoPhase [(⟨hsh, d, i⟩, [A, B]), (⟨hsh, d2, i2⟩, [C])],
      g.length = 2 ∧ (if strLe A B then B else A) ∉ g := by
  have hk : (⟨hsh, d, i⟩ : Key) ≠ ⟨hsh, d2, i2⟩ := by
    intro h
    cases h
    exact hinode rfl
  have hk12 : ((⟨hsh, d, i⟩ : Key) == ⟨hsh, d2, i2⟩) = false :=
    beq_eq_false_iff_ne.mpr hk
  have hk21 : ((⟨hsh, d2, i2⟩ : Key) == ⟨hsh, d, i⟩) = false :=
    beq_eq_false_iff_ne.mpr (Ne.symm hk)
  have hBA : B ≠ A := Ne.symm hAB
  have hCA : C ≠ A := Ne.symm hAC
  have hCB : C ≠ B := Ne.symm hBC
  by_cases hkle : keyLe ⟨hsh, d, i⟩ ⟨hsh, d2, i2⟩ <;>
    by_cases hab : strLe A B <;>
      simp [twoPhase, sortBy, insertBy, lookupKey, lookupHash, insertAppend,
        hkle, hab, hk12, hk21, hAB, hAC, hBC, hBA, hCA, hCB]

/-- Witness for C1: digest `[7]`, one inode `(1, 1)` carrying `/x/a` and
`/x/b`, a second inode `(1, 2)` carrying `/x/c`. -/
theorem c1_two_phase_witness :
    ("/x/a" ≠ "/x/b" ∧ "/x/a" ≠ "/x/c" ∧ "/x/b" ≠ "/x/c" ∧
      ((1, 1) : Nat × Nat) ≠ (1, 2)) ∧
    ((twoPhase [(⟨[7], 1, 1⟩, ["/x/a", "/x/b"]), (⟨[7], 1, 2⟩, ["/x/c"])] =
        [[if strLe "/x/a" "/x/b" then "/x/a" else "/x/b", "/x/c"]] ∨
      twoPhase [(⟨[7], 1, 1⟩, ["/x/a", "/x/b"]), (⟨[7], 1, 2⟩, ["/x/c"])] =
        [[("/x/c" : String), if strLe "/x/a" "/x/b" then "/x/a" else "/x/b"]]) ∧
      ∀ g ∈ twoPhase [(⟨[7], 1, 1⟩, ["/x/a", "/x/b"]), (⟨[7], 1, 2⟩, ["/x/c"])],
        g.length = 2 ∧ (if strLe "/x/a" "/x/b" then "/x/b" else "/x/a") ∉ g) :=
  ⟨⟨by decide, by decide, by decide, by decide⟩,
    c1_two_phase [7] 1 1 1 2 "/x/a" "/x/b" "/x/c"
      (by decide) (by decide) (by decide) (by decide)⟩

/-- C2: survivor selection in the replacement engine.  For every group
of two or more items, the survivor `processBatch` picks is the first
non-symlink of the group sorted by the spec ordering (priority rank
ascending, hardlink count descending, modification time ascending, path
ascending): it is a non-symlink member of the group that precedes, in
the spec ordering, every non-symlink member; if every member is a
symlink, no survivor is chosen and the group is skipped.  The sort the
code performs is indeed ordered by the spec ordering (conjuncts 3-4),
because the source comparator agrees with it (conjunct 5). -/
theorem c2_survivor_selection (items : List SurvItem) (hn : 2 ≤ items.length) :
    (selectSurvivor items = none ↔ ∀ it ∈ items, it.isSymlink = true) ∧
    (∀ s, selectSurvivor items = some s →
      s.isSymlink = false ∧ s ∈ items ∧
      ∀ t ∈ items, t.isSymlink = false → specOrderLE s t = true) ∧
    List.Pairwise (fun x y => specOrderLE x y = true) (sortItems items) ∧
    (sortItems items).Perm items ∧
    (∀ x y, itemLe x y = specOrderLE x y) := by
  have hperm : (sortItems items).Perm items := sortBy_perm itemLe items
  have hsorted := sortBy_sorted itemLe itemLe_total itemLe_trans items
  refine ⟨?_, ?_, ?_, hperm, itemLe_eq_spec⟩
  · unfold selectSurvivor
    rw [List.find?_eq_none]
    constructor
    · intro h it hit
      have hmem : it ∈ sortItems items := hperm.mem_iff.mpr hit
      have := h it hmem
      simpa using this
    · intro h x hx
      have hx2 : x ∈ items := hperm.mem_iff.mp hx
      simp [h x hx2]
  · intro s hf
    rw [selectSurvivor] at hf
    have hps := List.find?_some hf
    have hmem : s ∈ sortItems items := List.mem_of_find?_eq_some hf
    refine ⟨by simpa using hps, hperm.mem_iff.mp hmem, ?_⟩
    intro t ht hts
    have ht2 : t ∈ sortItems items := hperm.mem_iff.mpr ht
    have hle := sorted_find?_min itemLe_refl (sortItems items) hsorted s hf t ht2
      (by simp [hts])
    rwa [itemLe_eq_spec] at hle
  · exact hsorted.imp (fun h => by rwa [itemLe_eq_spec] at h)

/-- Witness for C2 at the specification's own example group: two
non-symlink items at equal priority, `/b` more widely hardlinked. -/
theorem c2_survivor_selection_witness :
    2 ≤ ([⟨0, 1, 10, "/a", false⟩, ⟨0, 2, 5, "/b", false⟩] : List SurvItem).length ∧
    ((selectSurvivor [⟨0, 1, 10, "/a", false⟩, ⟨0, 2, 5, "/b", false⟩] = none ↔
        ∀ it ∈ ([⟨0, 1, 10, "/a", false⟩, ⟨0, 2, 5, "/b", false⟩] : List SurvItem),
          it.isSymlink = true) ∧
      (∀ s, selectSurvivor [⟨0, 1, 10, "/a", false⟩, ⟨0, 2, 5, "/b", false⟩] = some s →
        s.isSymlink = false ∧
        s ∈ ([⟨0, 1, 10, "/a", false⟩, ⟨0, 2, 5, "/b", false⟩] : List SurvItem) ∧
        ∀ t ∈ ([⟨0, 1, 10, "/a", false⟩, ⟨0, 2, 5, "/b", false⟩] : List SurvItem),
          t.isSymlink = false → specOrderLE s t = true) ∧
      List.Pairwise (fun x y => specOrderLE x y = true)
        (sortItems [⟨0, 1, 10, "/a", false⟩, ⟨0, 2, 5, "/b", false⟩]) ∧
      (sortItems [⟨0, 1, 10, "/a", false⟩, ⟨0, 2, 5, "/b", false⟩]).Perm
        [⟨0, 1, 10, "/a", false⟩, ⟨0, 2, 5, "/b", false⟩] ∧
      (∀ x y, itemLe x y = specOrderLE x y)) :=
  ⟨by decide, c2_survivor_selection _ (by decide)⟩

/-- C7: whenever a glob input (not the raw-regex escape hatch beginning
with `^`) contains an unterminated character class or ends with a
nonzero brace-group depth — as reported by the specification-level
scanner `scanGlob` — `Compile` returns an error and no regular
expression at all. -/
theorem c7_malformed_error (input : List Nat)
    (hraw : input.head? ≠ some 94)
    (hbad : (scanGlob 0 input).1 = true ∨ (scanGlob 0 input).2 ≠ 0) :
    (Compile input).isOk = false := by
  have hmain : (globCompile input).isOk = false := by
    cases hok : (runMachine 0 input).isOk with
    | false => simp [globCompile, exceptIsOk_map, hok]
    | true =>
      have hscan := runMachine_ok_scan 0 input hok
      rw [hscan] at hbad
      simp at hbad
  cases input with
  | nil => exact hmain
  | cons c rest =>
    have hc : ¬c = 94 := by
      intro h
      subst h
      exact hraw rfl
    simpa [Compile, if_neg hc] using hmain

theorem c7_malformed_error_witness :
    ((scanGlob 0 [91, 97, 98]).1 = true ∨ (scanGlob 0 [91, 97, 98]).2 ≠ 0) ∧
    (Compile [91, 97, 98]).isOk = false :=
  ⟨Or.inl (by simp [scanGlob, classScan]),
    c7_malformed_error [91, 97, 98] (by decide)
      (Or.inl (by simp [scanGlob, classScan]))⟩

/-- C8: the glob `**/*.{jpg,png}` (written here as a code-point list
because of the brace group) compiles to the anchored pattern
`^.*/+[^/]*\.(?:jpg|png)$`, which matches the normalized path
`photos/2024/a.jpg` and does not match `photos/2024/a.jpeg`
(both paths are ASCII and already in normal form, so `Normalize` is the
identity on them). -/
theorem c8_glob_example :
    Compile c8Glob = .ok c8Pattern ∧
    goMatch c8Pattern (bytesOf "photos/2024/a.jpg") = some true ∧
    goMatch c8Pattern (bytesOf "photos/2024/a.jpeg") = some false := by
  refine ⟨?_, by decide, by decide⟩
  simp [Compile, c8Glob, c8Pattern, globCompile, runMachine, bracketArm, bracketBody,
    quoteMeta, isRegexSpecial, rxSlash, rxStar, rxStarStar, rxQuestion, bytesOf, Except.map]

/-- C10: `Metadata.Compute` is atomic on failure — whenever it returns
`false` (seek failure, read error, or a byte count differing from the
expected size) the metadata is left exactly as it was; on success the
metadata is rebuilt from scratch with all five bits, the expected size
and time, and the three digests of the streamed content; and success
happens exactly when the seek succeeds, no read errors occur, and the
observed byte count equals the expected size. -/
theorem c10_compute_atomicity (md5F sha1F sha256F : List Nat → List Nat)
    (meta : Metadata) (f : FileModel) (size modTime : Int) :
    ((Metadata.Compute md5F sha1F sha256F meta f size modTime).2 = false →
      (Metadata.Compute md5F sha1F sha256F meta f size modTime).1 = meta) ∧
    ((Metadata.Compute md5F sha1F sha256F meta f size modTime).2 = true →
      (Metadata.Compute md5F sha1F sha256F meta f size modTime).1 =
        ⟨AllBits, size, modTime, md5F (readBytes f.reads).1,
          sha1F (readBytes f.reads).1, sha256F (readBytes f.reads).1⟩) ∧
    ((Metadata.Compute md5F sha1F sha256F meta f size modTime).2 = true ↔
      (f.seekOK = true ∧ (readBytes f.reads).2 = false ∧
        size = ((readBytes f.reads).1.length : Int))) := by
  rcases hr : readBytes f.reads with ⟨bs, er⟩
  cases hs : f.seekOK <;> cases her : er <;>
    by_cases hsz : size = (bs.length : Int) <;>
      simp [Metadata.Compute, hr, hs, her, hsz]

end Dedupe

-- sanity scratch
example : Dedupe.parseInt10 (Dedupe.bytesOf "5") = some 5 := by decide
example : Dedupe.parseInt10 (Dedupe.bytesOf "-17") = some (-17) := by decide
example : Dedupe.parseInt10 (Dedupe.bytesOf "") = none := by decide
example : Dedupe.parseInt10 (Dedupe.bytesOf "+07") = some 7 := by decide
example : Dedupe.appendInt (-120) = Dedupe.bytesOf "-120" := by decide
example : Dedupe.splitOnComma (Dedupe.bytesOf "ab,c,") =
    [Dedupe.bytesOf "ab", Dedupe.bytesOf "c", []] := by decide
example : Dedupe.cutColon (Dedupe.bytesOf "md5:xy:z") =
    (Dedupe.bytesOf "md5", Dedupe.bytesOf "xy:z", true) := by decide
example : Dedupe.equalFold (Dedupe.bytesOf "ModTime") (Dedupe.bytesOf "modtime") = true := by decide
example : Dedupe.cmdDecodeInt (Dedupe.bytesOf "5") = none := by decide
example : Dedupe.cmdDecodeInt (Dedupe.bytesOf "50") = some 50 := by decide
example : Dedupe.decodeInt (Dedupe.bytesOf "5") = some 5 := by decide
example : Dedupe.decodeInt [0, 0, 0, 0, 0, 0, 1, 44] = some 300 := by decide
example : Dedupe.hexEncode [255, 0, 171] = Dedupe.bytesOf "ff00ab" := by decide
example : Dedupe.hexDecode 3 (Dedupe.bytesOf "ff00ab") = .ok [255, 0, 171] := by decide
example : Dedupe.hexDecode 2 (Dedupe.bytesOf "ff00ab") = .panic := by decide
example : Dedupe.b64Encode Dedupe.b64CharStd [77, 97, 110] = Dedupe.bytesOf "TWFu" := by decide
example : Dedupe.b64Encode Dedupe.b64CharStd [77, 97] = Dedupe.bytesOf "TWE=" := by decide
example : Dedupe.b64Decode Dedupe.b64ValStd 3 (Dedupe.bytesOf "TWFu") = .ok [77, 97, 110] := by decide
example : Dedupe.b64Decode Dedupe.b64ValStd 2 (Dedupe.bytesOf "TWE=") = .ok [77, 97] := by decide
example : Dedupe.decodeHash 3 [1, 2, 3] = .ok [1, 2, 3] := by decide
example : Dedupe.decodeHash 16 (List.replicate 34 48) = .panic := by decide
example : Dedupe.globCompile (Dedupe.bytesOf "a/b") = .ok (Dedupe.bytesOf "^a/+b$") := by
  simp [Dedupe.globCompile, Dedupe.runMachine, Dedupe.bracketArm, Dedupe.bracketBody,
    Dedupe.quoteMeta, Dedupe.isRegexSpecial, Dedupe.rxSlash, Dedupe.bytesOf, Except.map]
example : Dedupe.Compile Dedupe.c8Glob = .ok Dedupe.c8Pattern := by
  simp [Dedupe.Compile, Dedupe.c8Glob, Dedupe.c8Pattern, Dedupe.globCompile,
    Dedupe.runMachine, Dedupe.bracketArm, Dedupe.bracketBody, Dedupe.quoteMeta,
    Dedupe.isRegexSpecial, Dedupe.rxSlash, Dedupe.rxStar, Dedupe.rxStarStar,
    Dedupe.rxQuestion, Dedupe.bytesOf, Except.map]
example : Dedupe.goMatch Dedupe.c8Pattern (Dedupe.bytesOf "photos/2024/a.jpg") = some true := by decide
example : Dedupe.goMatch Dedupe.c8Pattern (Dedupe.bytesOf "photos/2024/a.jpeg") = some false := by decide
example : Dedupe.scanGlob 0 (Dedupe.bytesOf "a[bc") = (true, 0) := by
  simp [Dedupe.scanGlob, Dedupe.classScan, Dedupe.bytesOf]
example : (Dedupe.scanGlob 0 ([123] ++ Dedupe.bytesOf "ab")).2 = 1 := by
  simp [Dedupe.scanGlob, Dedupe.classScan, Dedupe.bytesOf]
example : (Dedupe.globCompile (Dedupe.bytesOf "a[bc")).isOk = false := by
  simp [Dedupe.globCompile, Dedupe.runMachine, Dedupe.bracketArm, Dedupe.bracketBody,
    Dedupe.quoteMeta, Dedupe.isRegexSpecial, Dedupe.bytesOf, Except.isOk, Except.toBool,
    Except.map]
example : (Dedupe.globCompile ([123] ++ Dedupe.bytesOf "ab")).isOk = false := by
  simp [Dedupe.globCompile, Dedupe.runMachine, Dedupe.bracketArm, Dedupe.bracketBody,
    Dedupe.quoteMeta, Dedupe.isRegexSpecial, Dedupe.bytesOf, Except.isOk, Except.toBool,
    Except.map]
